import Mathlib

/-!
Verification of the LeanIMT Go library (vocdoni/lean-imt-go) against its
natural-language specification.

The tree state is embedded as the jagged node matrix `List (List N)` mirroring
the Go field `nodes [][]N` (`nodes[0]` = leaves, top level = root level).  Go
slice indexing is rendered with `nth` (total, default on out-of-range, matching
Go's zero value for slots produced by `ensureIndex`); Go's `ensureIndex` +
assignment pair becomes `setAt`.  Every operation of the library is translated
function-by-function from the source; `parentLevel`, `buildLevels` and `build`
are analysis-side canonical forms used to state and prove invariants.
-/

set_option linter.unusedSectionVars false

namespace LeanIMT

variable {N : Type} [Inhabited N]

section Defs

variable (hash : N → N → N)

/-- Total lookup in a level, `default` out of range — the Go zero value that
`make([]N, missing)` produces. -/
def nth (l : List N) (i : Nat) : N := l.getD i default

/-- `ensureIndex` followed by `s[index] = v` from the Go source: grow the slice
with zero values so that `index` is addressable, then write `v` there. -/
def setAt (l : List N) (i : Nat) (v : N) : List N :=
  if i < l.length then l.set i v
  else (l ++ List.replicate (i + 1 - l.length) default).set i v

/-- Bit-length recursion with explicit fuel (`n` halves each step, so any
fuel of at least `n` computes the true bit length; structural recursion keeps
the definition kernel-computable). -/
def bitLenAux : Nat → Nat → Nat
  | _, 0 => 0
  | 0, _ + 1 => 0
  | fuel + 1, n + 1 => bitLenAux fuel ((n + 1) / 2) + 1

/-- Bit length of a natural number: the Go loop `for x > 0 { d++; x >>= 1 }`. -/
def bitLen (n : Nat) : Nat := bitLenAux n n

/-- `ceilLog2` from the Go source: minimal `d` with `2^d ≥ n` (0 for `n ≤ 1`),
computed as the bit length of `n - 1`. -/
def ceilLog2 (n : Nat) : Nat :=
  if n ≤ 1 then 0 else bitLen (n - 1)

/-- One parent level of the lean rule: hash adjacent pairs, and a lone last
node is adopted unchanged (no zero padding).  Canonical form shared by
`InsertMany`'s recompute loop, `rebuildTree` and the invariant statements. -/
def parentLevel : List N → List N
  | [] => []
  | [a] => [a]
  | a :: b :: rest => hash a b :: parentLevel rest

/-- The node matrix with `d` parent levels above the given leaf level. -/
def buildLevels : Nat → List N → List (List N)
  | 0, lvl => [lvl]
  | d + 1, lvl => lvl :: buildLevels d (parentLevel hash lvl)

/-- Canonical node matrix of a leaf sequence: `ceilLog2 size` levels above the
leaves, each the `parentLevel` of the one below. -/
def build (leaves : List N) : List (List N) :=
  buildLevels hash (ceilLog2 leaves.length) leaves

/-- `d`-fold iteration of `parentLevel`. -/
def iterParent : Nat → List N → List N
  | 0, lvl => lvl
  | d + 1, lvl => iterParent d (parentLevel hash lvl)

/-- Number of leaves of a node matrix (`len(t.nodes[0])`). -/
def sizeOf (nodes : List (List N)) : Nat := (nodes.headD []).length

/-- `Root()` from the Go source: the single element of the top level, absent
for an empty tree. -/
def rootOf (nodes : List (List N)) : Option N :=
  match nodes.getLast? with
  | none => none
  | some top => if top.length = 0 then none else some (nth top 0)

/-- Level `l` of a node matrix, as the Go source indexes `t.nodes[level]`. -/
def levelAt (nodes : List (List N)) (l : Nat) : List N := nodes.getD l []

/-- The carried-node rule of the Go `Insert` ancestor loop at one level: an
odd index hashes with the left sibling, an even index carries the node (lean
rule). -/
def insStep (lvl' : List N) (index : Nat) (node : N) : N :=
  if index % 2 = 1 then hash (nth lvl' (index - 1)) node else node

/-- The ancestor-update loop of Go `Insert`: walk the levels below the top,
writing the carried node at `nodes[level][index]` (for levels above the
leaves), hashing with the left sibling when the index is odd, and finally
replacing the top level with the single carried node. -/
def insertLevels : List (List N) → Nat → N → Bool → List (List N)
  | [], _, _, _ => []
  | [_top], _, node, _ => [[node]]
  | lvl :: next :: rest, index, node, doWrite =>
    let lvl' := cond doWrite (setAt lvl index node) lvl
    lvl' :: insertLevels (next :: rest) (index / 2) (insStep hash lvl' index node) true

/-- Go `Insert`: append the leaf at index `size`, adding a level when the
depth must grow, then update the ancestor path. -/
def insert (nodes : List (List N)) (leaf : N) : List (List N) :=
  match nodes with
  | [] => []
  | lvl0 :: rest =>
    let n := lvl0.length
    let rest' := if (lvl0 :: rest).length - 1 < ceilLog2 (n + 1) then rest ++ [[]] else rest
    insertLevels hash (setAt lvl0 n leaf :: rest') n leaf false

/-- The carried-node rule of the Go `Update` ancestor loop at one level: odd
indices hash with the left sibling, even indices hash with the right sibling
when it exists and carry the node otherwise. -/
def updStep (lvl' : List N) (index : Nat) (node : N) : N :=
  if index % 2 = 1 then hash (nth lvl' (index - 1)) node
  else if index + 1 < lvl'.length then hash node (nth lvl' (index + 1))
  else node

/-- The ancestor-update loop of Go `Update`: like `insertLevels`, but an
even-index node is hashed with its right sibling when that sibling exists. -/
def updateLevels : List (List N) → Nat → N → Bool → List (List N)
  | [], _, _, _ => []
  | [_top], _, node, _ => [[node]]
  | lvl :: next :: rest, index, node, doWrite =>
    let lvl' := cond doWrite (setAt lvl index node) lvl
    lvl' :: updateLevels (next :: rest) (index / 2) (updStep hash lvl' index node) true

/-- Go `Update`: replace the leaf at a valid index and rehash its ancestor
path.  An out-of-range index is an error in Go and leaves the tree unchanged,
rendered here as the identity. -/
def update (nodes : List (List N)) (index : Nat) (v : N) : List (List N) :=
  match nodes with
  | [] => []
  | lvl0 :: rest =>
    if index < lvl0.length then updateLevels hash (lvl0.set index v :: rest) index v false
    else lvl0 :: rest

/-- The lean parent of position `i` over a level, exactly as Go `InsertMany`,
`UpdateMany` and `rebuildTree` compute it: hash of the two children when the
right one exists, otherwise the left child. -/
def leanParent (lvl : List N) (i : Nat) : N :=
  if 2 * i + 1 < lvl.length then hash (nth lvl (2 * i)) (nth lvl (2 * i + 1))
  else nth lvl (2 * i)

/-- The inner loop of Go `InsertMany`: recompute parents at positions
`[i, i+c)` of `next` from the completed level `lvl`. -/
def recomputeRange (lvl : List N) : List N → Nat → Nat → List N
  | next, _, 0 => next
  | next, i, c + 1 => recomputeRange lvl (setAt next i (leanParent hash lvl i)) (i + 1) c

/-- The level loop of Go `InsertMany`: recompute parents from `start` up at
every level above the leaves, halving `start` per level. -/
def insertManyLevels : List (List N) → Nat → List (List N)
  | [], _ => []
  | [lvl], _ => [lvl]
  | lvl :: next :: rest, start =>
    let numNodes := (lvl.length + 1) / 2
    let next' := recomputeRange hash lvl next start (numNodes - start)
    lvl :: insertManyLevels (next' :: rest) (start / 2)
termination_by levels _ => levels.length
decreasing_by simp only [List.length_cons]; omega

/-- Go `InsertMany`: append the whole block of leaves, add the missing levels,
and recompute the affected parents level by level.  An empty block is an error
in Go and leaves the tree unchanged. -/
def insertMany (nodes : List (List N)) (leaves : List N) : List (List N) :=
  match leaves, nodes with
  | [], _ => nodes
  | _, [] => []
  | ls, lvl0 :: rest =>
    let start := lvl0.length / 2
    let newL0 := lvl0 ++ ls
    let newLevels := ceilLog2 newL0.length - ((lvl0 :: rest).length - 1)
    insertManyLevels hash (newL0 :: (rest ++ List.replicate newLevels [])) start

/-- The leaf-assignment loop of Go `UpdateMany`: `nodes[0][idx] = leaves[i]`
pairwise over the two input slices. -/
def writeAll : List N → List Nat → List N → List N
  | lvl, [], _ => lvl
  | lvl, _ :: _, [] => lvl
  | lvl, i :: is, v :: vs => writeAll (lvl.set i v) is vs

/-- One level of Go `UpdateMany`'s propagation: recompute the parent at every
modified position (Go iterates a set; the writes commute, so the list order is
irrelevant to the result). -/
def recomputeAt (lvl : List N) : List N → List Nat → List N
  | next, [] => next
  | next, i :: rest => recomputeAt lvl (setAt next i (leanParent hash lvl i)) rest

/-- The propagation loop of Go `UpdateMany`: recompute modified parents level
by level up to and including the top, shifting the modified set by `>> 1`. -/
def updateManyLevels : List (List N) → List Nat → List (List N)
  | [], _ => []
  | [lvl], _ => [lvl]
  | lvl :: next :: rest, modified =>
    let next' := recomputeAt hash lvl next modified
    lvl :: updateManyLevels (next' :: rest) (modified.map (· / 2))
termination_by levels _ => levels.length
decreasing_by simp only [List.length_cons]; omega

/-- Go `UpdateMany`: validate lengths, ranges and duplicates (any violation is
an error that leaves the tree unchanged), write the new leaves, then propagate
the modified parent positions upward. -/
def updateMany (nodes : List (List N)) (indices : List Nat) (leaves : List N) : List (List N) :=
  match nodes with
  | [] => nodes
  | lvl0 :: rest =>
    if indices.length ≠ leaves.length then lvl0 :: rest
    else if ¬ (∀ i ∈ indices, i < lvl0.length) then lvl0 :: rest
    else if ¬ indices.Nodup then lvl0 :: rest
    else if indices = [] then lvl0 :: rest
    else updateManyLevels hash (writeAll lvl0 indices leaves :: rest) (indices.map (· / 2))

/-- A LeanIMT Merkle proof, as the Go `MerkleProof` record (the Go `Index`
field is a packed machine word; path bits are embedded as a natural). -/
structure MerkleProof (N : Type) where
  root : N
  leaf : N
  index : Nat
  siblings : List N
deriving DecidableEq

/-- The level walk of Go `GenerateProof`: at each level below the top record
the left sibling with bit 1 when the index is odd, the right sibling with bit
0 when it exists, and nothing otherwise (the lean skip). -/
def pathPairs : List (List N) → Nat → List (N × Bool)
  | [], _ => []
  | lvl :: rest, index =>
    if index % 2 = 1 then (nth lvl (index - 1), true) :: pathPairs rest (index / 2)
    else if index + 1 < lvl.length then (nth lvl (index + 1), false) :: pathPairs rest (index / 2)
    else pathPairs rest (index / 2)

/-- Go's LSB-first packing loop `packed |= 1 << i`. -/
def packBits : List Bool → Nat
  | [] => 0
  | b :: rest => (cond b 1 0) + 2 * packBits rest

/-- Go `GenerateProof`: out-of-range indices are an error; otherwise record
the present siblings along the path and pack the recorded bits. -/
def generateProof (nodes : List (List N)) (index : Nat) : Option (MerkleProof N) :=
  if index < sizeOf nodes then
    let pairs := pathPairs nodes.dropLast index
    some { root := (rootOf nodes).getD default
           leaf := nth (nodes.headD []) index
           index := packBits (pairs.map Prod.snd)
           siblings := pairs.map Prod.fst }
  else none

/-- The recomputation loop of Go `VerifyProofWith`: fold the siblings over the
leaf, using bit `i` of the packed index (= parity after `i` halvings) to place
the sibling left or right. -/
def verifyLoop : N → Nat → List N → N
  | node, _, [] => node
  | node, idx, s :: rest =>
    verifyLoop (if idx % 2 = 1 then hash s node else hash node s) (idx / 2) rest

/-- Go `VerifyProofWith` (with the hash present): recompute the root from
leaf, packed index and siblings, and compare with the embedded root. -/
def VerifyProofWith (eqf : N → N → Bool) (p : MerkleProof N) : Bool :=
  eqf (verifyLoop hash p.leaf p.index p.siblings) p.root

/-- Spec-side description of what the proof generator records at level `l` of
the path of leaf `idx`: the left neighbour with bit 1 at odd positions, the
right neighbour with bit 0 when it exists, nothing otherwise (lean skip). -/
def recordAt (nodes : List (List N)) (idx l : Nat) : Option (N × Bool) :=
  if idx / 2 ^ l % 2 = 1 then some (nth (levelAt nodes l) (idx / 2 ^ l - 1), true)
  else if idx / 2 ^ l + 1 < (levelAt nodes l).length then
    some (nth (levelAt nodes l) (idx / 2 ^ l + 1), false)
  else none

/-- Spec-side description of the full list of recorded sibling/bit pairs: one
optional record per level strictly below the top. -/
def recordedPairs (nodes : List (List N)) (idx : Nat) : List (N × Bool) :=
  (List.range (nodes.length - 1)).filterMap (recordAt nodes idx)

/-- The relation between the stale upper levels of the tree (computed before a
batch append) and the new, longer leaf level: each stale level is correct
below the recompute start and no longer than the new parent level. -/
def StaleOK : List N → Nat → List (List N) → Prop
  | _, _, [] => True
  | cur, start, next :: rest =>
    start ≤ next.length ∧ next.length ≤ (parentLevel hash cur).length ∧
    (∀ j, j < start → nth next j = nth (parentLevel hash cur) j) ∧
    StaleOK (parentLevel hash cur) (start / 2) rest

/-- The relation between the stale upper levels of a tree and the rewritten
leaf level of `UpdateMany`: each stale level matches the new parent level
outside the modified positions, and every modified position is in range. -/
def ModOK : List N → List Nat → List (List N) → Prop
  | _, _, [] => True
  | cur, mods, next :: rest =>
    next.length = (parentLevel hash cur).length ∧
    (∀ j, j < next.length → j ∉ mods → nth next j = nth (parentLevel hash cur) j) ∧
    (∀ j ∈ mods, j < next.length) ∧
    ModOK (parentLevel hash cur) (mods.map (· / 2)) rest

/-- The reference two-prime test hash from the source (`bigIntHasher` in
helpers.go), over naturals. -/
def bigIntHasher (a b : Nat) : Nat := 1315423911 * a + 2654435761 * b

/-- Tree states reachable from the empty tree (`New` with no store yields
`nodes = [[]]`) by the four mutating operations. -/
inductive Reachable (hash : N → N → N) : List (List N) → Prop where
  | empty : Reachable hash [[]]
  | ins {t : List (List N)} (leaf : N) : Reachable hash t → Reachable hash (insert hash t leaf)
  | insMany {t : List (List N)} (leaves : List N) :
      Reachable hash t → Reachable hash (insertMany hash t leaves)
  | upd {t : List (List N)} (i : Nat) (v : N) :
      Reachable hash t → Reachable hash (update hash t i v)
  | updMany {t : List (List N)} (is : List Nat) (vs : List N) :
      Reachable hash t → Reachable hash (updateMany hash t is vs)

/-- `PackAddressWeight` from census/helpers.go: pack a 160-bit address and an
88-bit weight as `(address << 88) | weight`; `none` models the two panic
branches on oversized inputs (`BitLen` of a non-negative big.Int is `bitLen`). -/
def PackAddressWeight (address weight : Nat) : Option Nat :=
  if 160 < bitLen address then none
  else if 88 < bitLen weight then none
  else some ((address <<< 88) ||| weight)

/-- `UnpackAddressWeight` from census/helpers.go: weight = lower 88 bits via
the mask `(1 << 88) - 1`, address = the value shifted right by 88. -/
def UnpackAddressWeight (packed : Nat) : Nat × Nat :=
  let weightMask := (1 <<< 88) - 1
  (packed >>> 88, packed &&& weightMask)

/-- The keys the persistence layer owns: `meta:size`, `meta:version` and
`leaf:<i>`.  The Go key strings are in bijection with this type (distinct
prefixes, injective decimal rendering of the index). -/
inductive DbKey where
  | metaSize : DbKey
  | metaVersion : DbKey
  | leaf : Nat → DbKey
deriving DecidableEq

/-- One operation of a KV write transaction. -/
inductive DbOp where
  | set : DbKey → List Nat → DbOp
  | del : DbKey → DbOp

/-- Apply one transaction operation to a store (store = point-lookup map). -/
def applyOp (st : DbKey → Option (List Nat)) : DbOp → DbKey → Option (List Nat)
  | DbOp.set k v, q => if q = k then some v else st q
  | DbOp.del k, q => if q = k then none else st q

/-- Apply a whole transaction atomically (`tx.Commit`). -/
def applyOps (st : DbKey → Option (List Nat)) (ops : List DbOp) : DbKey → Option (List Nat) :=
  ops.foldl applyOp st

/-- `intToString` from the Go source, as the byte list of the decimal
rendering (ASCII digits, most significant first; 0 renders as "0"). -/
def intToString (x : Nat) : List Nat :=
  if x = 0 then [48] else ((Nat.digits 10 x).map (· + 48)).reverse

/-- `encodeInt` from the Go source. -/
def encodeInt (n : Nat) : List Nat := intToString n

/-- `decodeInt` from the Go source: fold the decimal digits, skipping any
non-digit byte. -/
def decodeInt (b : List Nat) : Nat :=
  b.foldl (fun result digit =>
    if 48 ≤ digit ∧ digit ≤ 57 then result * 10 + (digit - 48) else result) 0

/-- The value stored under `meta:version`: the byte string "1". -/
def versionOne : List Nat := [49]

/-- A tree handle with persistence state: the node matrix, the `dirty` flag,
whether a store is attached (`t.db != nil`), and the committed store. -/
structure PTree (N : Type) where
  nodes : List (List N)
  dirty : Bool
  hasDb : Bool
  store : DbKey → Option (List Nat)

/-- The previous persisted size, as `cleanupStaleLeaves` reads it: absent
`meta:size` means nothing to clean (0). -/
def prevSizeOf (st : DbKey → Option (List Nat)) : Nat :=
  match st DbKey.metaSize with
  | none => 0
  | some bs => decodeInt bs

/-- The write transaction of Go `Sync`, in order: set every current leaf,
delete stale leaves in `[size, prevSize)`, set `meta:size` and
`meta:version`. -/
def syncOps (encode : N → List Nat) (leaves : List N) (prevSize : Nat) : List DbOp :=
  ((List.range leaves.length).map fun i => DbOp.set (DbKey.leaf i) (encode (nth leaves i)))
    ++ ((List.range' leaves.length (prevSize - leaves.length)).map fun i => DbOp.del (DbKey.leaf i))
    ++ [DbOp.set DbKey.metaSize (encodeInt leaves.length), DbOp.set DbKey.metaVersion versionOne]

/-- Go `Sync`: a no-op without a store or when not dirty; otherwise commit
the transaction atomically and clear `dirty`. -/
def sync (encode : N → List Nat) (t : PTree N) : PTree N :=
  if ¬ t.hasDb then t
  else if ¬ t.dirty then t
  else { t with
      dirty := false
      store := applyOps t.store (syncOps encode (t.nodes.headD []) (prevSizeOf t.store)) }

/-- The leaf-reading loop of Go `Load`: read and decode `leaf:<i>` for every
`i < size`; any missing key or decoder failure is an error. -/
def loadLeaves (decode : List Nat → Option N) (st : DbKey → Option (List Nat)) :
    Nat → Option (List N)
  | 0 => some []
  | n + 1 =>
    (loadLeaves decode st n).bind fun rest =>
      (st (DbKey.leaf n)).bind fun bs =>
        (decode bs).map fun leaf => rest ++ [leaf]

/-- One parent level as Go `rebuildTree` computes it: `numParents` slots,
each the lean parent of its two children. -/
def parentOfLevel (lvl : List N) : List N :=
  (List.range ((lvl.length + 1) / 2)).map (leanParent hash lvl)

/-- The level loop of Go `rebuildTree`. -/
def rebuildLevels : Nat → List N → List (List N)
  | 0, lvl => [lvl]
  | d + 1, lvl => lvl :: rebuildLevels d (parentOfLevel hash lvl)

/-- Go `rebuildTree`: leave `[leaves]` untouched when empty, otherwise
rebuild `ceilLog2 size` levels from scratch with the lean rule. -/
def rebuildNodes (leaves : List N) : List (List N) :=
  if leaves.length = 0 then [leaves] else rebuildLevels hash (ceilLog2 leaves.length) leaves

/-- Go `Load`: read `meta:size` (absent means the empty tree), read and
decode every leaf, then rebuild the internal levels. -/
def load (decode : List Nat → Option N) (st : DbKey → Option (List Nat)) :
    Option (List (List N)) :=
  match st DbKey.metaSize with
  | none => some [[]]
  | some bs =>
    if decodeInt bs = 0 then some [[]]
    else (loadLeaves decode st (decodeInt bs)).map (rebuildNodes hash)

/-- Association-list lookup, modelling the Go census maps. -/
def alookup (m : List (Nat × Nat)) (k : Nat) : Option Nat :=
  match m with
  | [] => none
  | (k', v) :: rest => if k' = k then some v else alookup rest k

/-- Association-list write (`m[k] = v`), modelling the Go census maps. -/
def aset (m : List (Nat × Nat)) (k v : Nat) : List (Nat × Nat) :=
  match m with
  | [] => [(k, v)]
  | (k', v') :: rest => if k' = k then (k, v) :: rest else (k', v') :: aset rest k v

/-- The in-memory state of `CensusIMT`: the wrapped tree (leaves are packed
address/weight naturals) and the three lockstep maps.  Addresses are the
160-bit numbers behind the Go hex strings (the hex rendering is injective). -/
structure Census where
  tree : List (List Nat)
  addressIndex : List (Nat × Nat)
  indexToAddress : List (Nat × Nat)
  weights : List (Nat × Nat)
deriving DecidableEq

/-- The distinct census error kinds the claims mention. -/
inductive CensusErr where
  | addressNotFound : CensusErr
  | indexOutOfRange : CensusErr
  | emptyCensus : CensusErr
  | badCensusDump : CensusErr
deriving DecidableEq

/-- Census `Update` from census_imt.go: absent address is
`ErrAddressNotFound`; otherwise pack the address with the new weight (a panic
in `PackAddressWeight` is `none`), update the tree at the stored index (the
range check is `tree.Update`'s own error branch, which mutates nothing), and
record the new weight.  Persistence (`persistEntry`) concerns the KV only. -/
def censusUpdate (hasher : Nat → Nat → Nat) (c : Census) (addr w : Nat) :
    Option (Census × Option CensusErr) :=
  match alookup c.addressIndex addr with
  | none => some (c, some CensusErr.addressNotFound)
  | some idx =>
    match PackAddressWeight addr w with
    | none => none
    | some packed =>
      if idx < sizeOf c.tree then
        some ({ c with
          tree := update hasher c.tree idx packed
          weights := aset c.weights addr w }, none)
      else some (c, some CensusErr.indexOutOfRange)

/-- The census map/tree invariant: the tree is canonical over its leaves,
every indexed address has a stored weight and its packed leaf at its index,
and the maps are functional and injective. -/
def CensusInv (hasher : Nat → Nat → Nat) (c : Census) : Prop :=
  c.tree = build hasher (c.tree.headD []) ∧
  (∀ p ∈ c.addressIndex, p.2 < sizeOf c.tree ∧ p.1 < 2 ^ 160 ∧
    ∃ w, alookup c.weights p.1 = some w ∧ w < 2 ^ 88 ∧
      nth (c.tree.headD []) p.2 = p.1 * 2 ^ 88 + w) ∧
  (∀ p ∈ c.addressIndex, ∀ q ∈ c.addressIndex, p.2 = q.2 → p = q) ∧
  (∀ p ∈ c.addressIndex, ∀ q ∈ c.addressIndex, p.1 = q.1 → p = q)

/-- A census dump participant (`CensusParticipant`): a nil JSON weight is
`none`. -/
structure Participant where
  index : Nat
  address : Nat
  weight : Option Nat
deriving DecidableEq

/-- A census dump (`CensusDump`), root plus participants (the other fields
play no role in import). -/
structure CensusDump where
  root : Nat
  participants : List Participant
deriving DecidableEq

/-- `isEmptyParticipant` from census_imt.go. -/
def isEmptyParticipant (p : Participant) : Bool :=
  if p.address ≠ 0 then false
  else match p.weight with
    | none => true
    | some w => w = 0

/-- Insert the same leaf `k` times (the gap-filling loop of import). -/
def insertN (hasher : Nat → Nat → Nat) (t : List (List Nat)) (v : Nat) : Nat → List (List Nat)
  | 0 => t
  | k + 1 => insertN hasher (insert hasher t v) v k

/-- The freshly recreated census of `ImportAll` step 3: empty maps and a new
empty tree. -/
def freshCensus : Census :=
  { tree := [[]], addressIndex := [], indexToAddress := [], weights := [] }

/-- One iteration of the `ImportAll` participant loop: fill index gaps with
zero leaves, then either insert a zero leaf (empty slot) or the packed
participant, recording the maps.  `none` models a `PackAddressWeight` panic
(including a nil weight on a non-empty participant). -/
def importStep (hasher : Nat → Nat → Nat) (acc : Option (Census × Nat)) (p : Participant) :
    Option (Census × Nat) :=
  match acc with
  | none => none
  | some (c, exp) =>
    let t1 := insertN hasher c.tree 0 (p.index - exp)
    let exp1 := max exp p.index
    if isEmptyParticipant p then
      some ({ c with tree := insert hasher t1 0 }, exp1 + 1)
    else
      match p.weight with
      | none => none
      | some w =>
        match PackAddressWeight p.address w with
        | none => none
        | some packed =>
          some ({ tree := insert hasher t1 packed
                  addressIndex := aset c.addressIndex p.address p.index
                  indexToAddress := aset c.indexToAddress p.index p.address
                  weights := aset c.weights p.address w }, exp1 + 1)

/-- Step 4 of `ImportAll`: sort the participants by index ascending. -/
def sortParticipants (ps : List Participant) : List Participant :=
  ps.mergeSort (fun a b => a.index ≤ b.index)

/-- `ImportAll` from census_imt.go on the in-memory state (`resetPersistentState`
and `persistImportedData` touch only the KV): clear the maps, recreate the
tree, insert the sorted participants, then compare the computed root with the
declared one; on mismatch the call returns `ErrBadCensusDump` with the
already-replaced state.  The prior census `c` is discarded wholesale. -/
def importAll (hasher : Nat → Nat → Nat) (_c : Census) (dump : CensusDump) :
    Option (Census × Option CensusErr) :=
  match (sortParticipants dump.participants).foldl (importStep hasher) (some (freshCensus, 0)) with
  | none => none
  | some (c1, _) =>
    match rootOf c1.tree with
    | none => some (c1, some CensusErr.emptyCensus)
    | some r =>
      if r = dump.root then some (c1, none) else some (c1, some CensusErr.badCensusDump)

end Defs

section Thms

variable (hash : N → N → N)

theorem bitLenAux_congr : ∀ (fuel fuel' m : Nat), m ≤ fuel → m ≤ fuel' →
    bitLenAux fuel m = bitLenAux fuel' m
  | fuel, fuel', 0, _, _ => by
    cases fuel <;> cases fuel' <;> rfl
  | fuel + 1, fuel' + 1, m + 1, h1, h2 => by
    rw [bitLenAux, bitLenAux,
      bitLenAux_congr fuel fuel' ((m + 1) / 2) (by omega) (by omega)]

theorem bitLen_zero : bitLen 0 = 0 := rfl

theorem bitLen_succ (n : Nat) : bitLen (n + 1) = bitLen ((n + 1) / 2) + 1 := by
  rw [bitLen, bitLen, bitLenAux,
    bitLenAux_congr n ((n + 1) / 2) ((n + 1) / 2) (by omega) (by omega)]

theorem bitLen_le : ∀ m d : Nat, (bitLen m ≤ d ↔ m < 2 ^ d)
  | 0, d => by
    rw [bitLen_zero]
    exact ⟨fun _ => Nat.two_pow_pos d, fun _ => Nat.zero_le d⟩
  | m + 1, 0 => by
    rw [bitLen_succ, pow_zero]
    omega
  | m + 1, d + 1 => by
    rw [bitLen_succ, Nat.add_le_add_iff_right, bitLen_le ((m + 1) / 2) d, pow_succ]
    omega
decreasing_by exact Nat.div_lt_self (Nat.succ_pos m) (by omega)

theorem ceilLog2_le_iff {n d : Nat} (hn : 1 ≤ n) : ceilLog2 n ≤ d ↔ n ≤ 2 ^ d := by
  by_cases h : n ≤ 1
  · have hn1 : n = 1 := by omega
    subst hn1
    have h1 : ceilLog2 1 = 0 := rfl
    rw [h1]
    exact ⟨fun _ => Nat.one_le_two_pow, fun _ => Nat.zero_le d⟩
  · rw [ceilLog2, if_neg h, bitLen_le]
    omega

theorem le_two_pow_ceilLog2 (n : Nat) : n ≤ 2 ^ ceilLog2 n := by
  match n with
  | 0 => exact Nat.zero_le _
  | n + 1 => exact (ceilLog2_le_iff (by omega)).mp le_rfl

theorem ceilLog2_mono {m n : Nat} (h : m ≤ n) : ceilLog2 m ≤ ceilLog2 n := by
  match m with
  | 0 => simp [ceilLog2]
  | m + 1 =>
    exact (ceilLog2_le_iff (by omega)).mpr
      (le_trans h (le_two_pow_ceilLog2 n))

theorem ceilLog2_zero : ceilLog2 0 = 0 := rfl

theorem ceilLog2_one : ceilLog2 1 = 0 := rfl

theorem parentLevel_length : ∀ l : List N, (parentLevel hash l).length = (l.length + 1) / 2
  | [] => by simp [parentLevel]
  | [_] => by simp [parentLevel]
  | _ :: _ :: rest => by
    simp only [parentLevel, List.length_cons, parentLevel_length rest]
    omega

theorem nth_parentLevel : ∀ (l : List N) (i : Nat), 2 * i < l.length →
    nth (parentLevel hash l) i =
      if 2 * i + 1 < l.length then hash (nth l (2 * i)) (nth l (2 * i + 1))
      else nth l (2 * i)
  | [], i, h => by simp at h
  | [a], i, h => by
    have : i = 0 := by simp at h; omega
    subst this
    simp [parentLevel, nth]
  | a :: b :: rest, 0, h => by
    simp [parentLevel, nth]
  | a :: b :: rest, i + 1, h => by
    have hrest : 2 * i < rest.length := by
      simp only [List.length_cons] at h
      omega
    have ih := nth_parentLevel rest i hrest
    have l1 : nth (parentLevel hash (a :: b :: rest)) (i + 1) = nth (parentLevel hash rest) i := by
      simp [parentLevel, nth]
    have l2 : nth (a :: b :: rest) (2 * (i + 1)) = nth rest (2 * i) := by
      have e : 2 * (i + 1) = 2 * i + 1 + 1 := by omega
      rw [e]
      simp [nth]
    have l3 : nth (a :: b :: rest) (2 * (i + 1) + 1) = nth rest (2 * i + 1) := by
      have e : 2 * (i + 1) + 1 = 2 * i + 1 + 1 + 1 := by omega
      rw [e]
      simp [nth]
    by_cases hc : 2 * i + 1 < rest.length
    · rw [l1, ih, if_pos hc, if_pos (by simp only [List.length_cons]; omega), l2, l3]
    · rw [l1, ih, if_neg hc, if_neg (by simp only [List.length_cons]; omega), l2]

theorem nth_nil (i : Nat) : nth ([] : List N) i = default := by
  simp [nth]

theorem nth_cons_zero (a : N) (l : List N) : nth (a :: l) 0 = a := by
  simp [nth]

theorem nth_cons_succ (a : N) (l : List N) (i : Nat) : nth (a :: l) (i + 1) = nth l i := by
  simp [nth]

theorem nth_of_length_le {l : List N} {i : Nat} (h : l.length ≤ i) : nth l i = default := by
  rw [nth, List.getD, List.get?_eq_none.mpr h]
  rfl

theorem ext_nth {a b : List N} (hlen : a.length = b.length)
    (h : ∀ j, j < a.length → nth a j = nth b j) : a = b := by
  induction a generalizing b with
  | nil =>
    cases b with
    | nil => rfl
    | cons x xs => simp at hlen
  | cons x xs ih =>
    cases b with
    | nil => simp at hlen
    | cons y ys =>
      have h0 := h 0 (by simp)
      simp only [nth_cons_zero] at h0
      subst h0
      have htl : xs = ys := by
        apply ih
        · simpa using hlen
        · intro j hj
          have := h (j + 1) (by simp; omega)
          simpa [nth_cons_succ] using this
      rw [htl]

theorem nth_set (l : List N) (i j : Nat) (v : N) :
    nth (l.set i v) j = if i = j ∧ j < l.length then v else nth l j := by
  induction l generalizing i j with
  | nil => simp [nth]
  | cons a as ih =>
    cases i with
    | zero =>
      cases j with
      | zero => simp [nth]
      | succ j => simp [nth_cons_succ, List.set]
    | succ i =>
      cases j with
      | zero => simp [nth_cons_zero, List.set]
      | succ j =>
        simp only [List.set, nth_cons_succ, ih i j, List.length_cons]
        by_cases hij : i = j ∧ j < as.length
        · rw [if_pos hij, if_pos (by omega)]
        · rw [if_neg hij, if_neg (by omega)]

theorem nth_append_left {l₁ : List N} (l₂ : List N) {j : Nat} (h : j < l₁.length) :
    nth (l₁ ++ l₂) j = nth l₁ j := by
  simp [nth, List.getD, List.getElem?_append_left h]

theorem nth_append_right {l₁ l₂ : List N} {j : Nat} (h : l₁.length ≤ j) :
    nth (l₁ ++ l₂) j = nth l₂ (j - l₁.length) := by
  simp [nth, List.getD, List.getElem?_append_right h]

theorem length_setAt (l : List N) (i : Nat) (v : N) :
    (setAt l i v).length = max l.length (i + 1) := by
  rw [setAt]
  by_cases h : i < l.length
  · rw [if_pos h, List.length_set]
    omega
  · rw [if_neg h, List.length_set, List.length_append, List.length_replicate]
    omega

theorem setAt_of_lt {l : List N} {i : Nat} (v : N) (h : i < l.length) :
    setAt l i v = l.set i v := by
  rw [setAt, if_pos h]

theorem setAt_append (l : List N) (v : N) : setAt l l.length v = l ++ [v] := by
  rw [setAt, if_neg (by omega)]
  have hrep : l.length + 1 - l.length = 1 := by omega
  rw [hrep]
  apply ext_nth
  · simp
  · intro j hj
    simp only [List.length_set, List.length_append, List.length_replicate] at hj
    rw [nth_set]
    by_cases hjl : j < l.length
    · rw [if_neg (by omega), nth_append_left _ hjl, nth_append_left _ hjl]
    · have hje : j = l.length := by omega
      subst hje
      rw [if_pos ⟨rfl, by simp⟩]
      rw [nth_append_right (le_refl _)]
      simp [nth]

theorem nth_setAt (l : List N) (i j : Nat) (v : N) (hle : i ≤ l.length) :
    nth (setAt l i v) j = if i = j then v else nth l j := by
  by_cases h : i < l.length
  · rw [setAt_of_lt v h, nth_set]
    by_cases hij : i = j
    · subst hij
      rw [if_pos ⟨rfl, h⟩, if_pos rfl]
    · rw [if_neg (by omega), if_neg hij]
  · have he : i = l.length := by omega
    subst he
    rw [setAt_append]
    by_cases hij : l.length = j
    · subst hij
      rw [if_pos rfl, nth_append_right (le_refl _)]
      simp [nth]
    · rw [if_neg hij]
      by_cases hjl : j < l.length
      · rw [nth_append_left _ hjl]
      · rw [nth_append_right (by omega), nth_of_length_le (l := [v]) (by simp; omega),
          nth_of_length_le (by omega)]

theorem buildLevels_length (d : Nat) (lvl : List N) :
    (buildLevels hash d lvl).length = d + 1 := by
  induction d generalizing lvl with
  | zero => simp [buildLevels]
  | succ d ih => simp [buildLevels, ih]

theorem buildLevels_head (d : Nat) (lvl : List N) :
    (buildLevels hash d lvl).headD [] = lvl := by
  cases d <;> simp [buildLevels]

theorem buildLevels_ne_nil (d : Nat) (lvl : List N) : buildLevels hash d lvl ≠ [] := by
  cases d <;> simp [buildLevels]

theorem buildLevels_getLast (d : Nat) (lvl : List N) :
    (buildLevels hash d lvl).getLast? = some (iterParent hash d lvl) := by
  induction d generalizing lvl with
  | zero => simp [buildLevels, iterParent]
  | succ d ih =>
    rw [buildLevels, iterParent, List.getLast?_cons, ih]
    simp

theorem buildLevels_zero (lvl : List N) : buildLevels hash 0 lvl = [lvl] := rfl

theorem buildLevels_succ (d : Nat) (lvl : List N) :
    buildLevels hash (d + 1) lvl = lvl :: buildLevels hash d (parentLevel hash lvl) := rfl

theorem levelAt_buildLevels (d l : Nat) (lvl : List N) (h : l ≤ d) :
    levelAt (buildLevels hash d lvl) l = iterParent hash l lvl := by
  induction l generalizing d lvl with
  | zero => cases d <;> simp [buildLevels, levelAt, iterParent]
  | succ l ih =>
    match d with
    | 0 => omega
    | d + 1 =>
      have ihd := ih d (parentLevel hash lvl) (by omega)
      rw [buildLevels, iterParent]
      rw [← ihd]
      simp [levelAt]

theorem iterParent_length_one {d : Nat} {lvl : List N} (h1 : 1 ≤ lvl.length)
    (h2 : lvl.length ≤ 2 ^ d) : (iterParent hash d lvl).length = 1 := by
  induction d generalizing lvl with
  | zero =>
    simp only [pow_zero] at h2
    simp [iterParent]
    omega
  | succ d ih =>
    rw [iterParent]
    apply ih
    · rw [parentLevel_length]
      omega
    · rw [parentLevel_length]
      rw [pow_succ] at h2
      omega

theorem setAt_zero_of_length_le_one {cur : List N} (v : N) (h : cur.length ≤ 1) :
    setAt cur 0 v = [v] := by
  apply ext_nth
  · rw [length_setAt]
    simp only [List.length_cons, List.length_nil]
    omega
  · intro j hj
    rw [length_setAt] at hj
    have hj0 : j = 0 := by omega
    subst hj0
    rw [nth_setAt _ _ _ _ (by omega), if_pos rfl, nth_cons_zero]

/-- Writing the new node at the end of a level moves `parentLevel` by exactly
one `setAt` at the parent position, with the `Insert` step rule. -/
theorem parentLevel_setAt {cur : List N} {idx : Nat} (node : N)
    (h1 : idx ≤ cur.length) (h2 : cur.length ≤ idx + 1) :
    parentLevel hash (setAt cur idx node) =
      setAt (parentLevel hash cur) (idx / 2) (insStep hash (setAt cur idx node) idx node) := by
  have hlen' : (setAt cur idx node).length = idx + 1 := by
    rw [length_setAt]
    omega
  have hplen : (parentLevel hash cur).length = (cur.length + 1) / 2 := parentLevel_length hash cur
  apply ext_nth
  · rw [parentLevel_length, hlen', length_setAt, hplen]
    omega
  · intro j hj
    rw [parentLevel_length, hlen'] at hj
    have h2j : 2 * j < (setAt cur idx node).length := by rw [hlen']; omega
    have hRHS : nth (setAt (parentLevel hash cur) (idx / 2)
        (insStep hash (setAt cur idx node) idx node)) j
        = if idx / 2 = j then insStep hash (setAt cur idx node) idx node
          else nth (parentLevel hash cur) j :=
      nth_setAt _ _ _ _ (by rw [hplen]; omega)
    rw [nth_parentLevel hash _ j h2j, hRHS]
    by_cases hje : idx / 2 = j
    · subst hje
      rw [if_pos rfl]
      rcases Nat.even_or_odd idx with he | ho
      · have hm : idx % 2 = 0 := Nat.even_iff.mp he
        have h2i : 2 * (idx / 2) = idx := by omega
        rw [if_neg (by rw [hlen']; omega), h2i, nth_setAt _ _ _ _ h1, if_pos rfl,
          insStep, if_neg (by omega)]
      · have hm : idx % 2 = 1 := Nat.odd_iff.mp ho
        have h2i : 2 * (idx / 2) = idx - 1 := by omega
        have h2i1 : 2 * (idx / 2) + 1 = idx := by omega
        have hA : nth (setAt cur idx node) (2 * (idx / 2) + 1) = node := by
          rw [h2i1, nth_setAt _ _ _ _ h1, if_pos rfl]
        rw [if_pos (by rw [hlen']; omega), hA, h2i, insStep, if_pos hm]
    · rw [if_neg hje]
      have hjlt : 2 * j + 1 < idx := by omega
      have hc1 : nth (setAt cur idx node) (2 * j) = nth cur (2 * j) := by
        rw [nth_setAt _ _ _ _ h1, if_neg (by omega)]
      have hc2 : nth (setAt cur idx node) (2 * j + 1) = nth cur (2 * j + 1) := by
        rw [nth_setAt _ _ _ _ h1, if_neg (by omega)]
      rw [if_pos (by rw [hlen']; omega), hc1, hc2,
        nth_parentLevel hash cur j (by omega), if_pos (by omega)]

theorem insertLevels_build : ∀ (d : Nat) (cur : List N) (idx : Nat) (node : N),
    idx ≤ cur.length → cur.length ≤ idx + 1 → idx + 1 ≤ 2 ^ d →
    insertLevels hash (buildLevels hash d cur) idx node true
      = buildLevels hash d (setAt cur idx node)
  | 0, cur, idx, node, h1, h2, h3 => by
    simp only [pow_zero] at h3
    have hidx : idx = 0 := by omega
    subst hidx
    rw [buildLevels, buildLevels, insertLevels, setAt_zero_of_length_le_one node (by omega)]
  | d + 1, cur, idx, node, h1, h2, h3 => by
    obtain ⟨next, rest, he⟩ : ∃ next rest,
        buildLevels hash d (parentLevel hash cur) = next :: rest := by
      cases d <;> exact ⟨_, _, rfl⟩
    have hcons : insertLevels hash (buildLevels hash (d + 1) cur) idx node true
        = setAt cur idx node :: insertLevels hash (buildLevels hash d (parentLevel hash cur))
            (idx / 2) (insStep hash (setAt cur idx node) idx node) true := by
      rw [buildLevels, he, insertLevels]
      rfl
    rw [hcons,
      insertLevels_build d (parentLevel hash cur) (idx / 2)
        (insStep hash (setAt cur idx node) idx node)
        (by rw [parentLevel_length]; omega)
        (by rw [parentLevel_length]; omega)
        (by rw [pow_succ] at h3; omega)]
    conv_rhs => rw [buildLevels, parentLevel_setAt hash node h1 h2]
decreasing_by omega

theorem insertLevels_build_pad : ∀ (d : Nat) (cur : List N) (idx : Nat) (node : N),
    idx ≤ cur.length → cur.length ≤ idx + 1 → idx + 1 ≤ 2 ^ (d + 1) →
    insertLevels hash (buildLevels hash d cur ++ [[]]) idx node true
      = buildLevels hash (d + 1) (setAt cur idx node)
  | 0, cur, idx, node, h1, h2, h3 => by
    have hbase : insertLevels hash (buildLevels hash 0 cur ++ [[]]) idx node true
        = setAt cur idx node :: insertLevels hash [[]] (idx / 2)
            (insStep hash (setAt cur idx node) idx node) true := by
      rw [buildLevels]
      rfl
    rw [hbase, insertLevels]
    conv_rhs => rw [buildLevels, parentLevel_setAt hash node h1 h2, buildLevels]
    have h3' : idx + 1 ≤ 2 := by
      have hpow : (2 : Nat) ^ (0 + 1) = 2 := by norm_num
      omega
    have hple : (parentLevel hash cur).length ≤ 1 := by
      rw [parentLevel_length]
      omega
    have hhalf : idx / 2 = 0 := by omega
    rw [hhalf, setAt_zero_of_length_le_one _ hple]
  | d + 1, cur, idx, node, h1, h2, h3 => by
    obtain ⟨next, rest, he⟩ : ∃ next rest,
        buildLevels hash d (parentLevel hash cur) ++ [[]] = next :: rest := by
      cases d <;> exact ⟨_, _, rfl⟩
    have hcons : insertLevels hash (buildLevels hash (d + 1) cur ++ [[]]) idx node true
        = setAt cur idx node
            :: insertLevels hash (buildLevels hash d (parentLevel hash cur) ++ [[]])
              (idx / 2) (insStep hash (setAt cur idx node) idx node) true := by
      rw [buildLevels, List.cons_append, he, insertLevels]
      rfl
    rw [hcons,
      insertLevels_build_pad d (parentLevel hash cur) (idx / 2)
        (insStep hash (setAt cur idx node) idx node)
        (by rw [parentLevel_length]; omega)
        (by rw [parentLevel_length]; omega)
        (by rw [pow_succ] at h3 ⊢; omega)]
    conv_rhs => rw [buildLevels, parentLevel_setAt hash node h1 h2]
decreasing_by omega

theorem insertLevels_write (lvl : List N) (rest : List (List N)) (idx : Nat) (node : N) :
    insertLevels hash (setAt lvl idx node :: rest) idx node false
      = insertLevels hash (lvl :: rest) idx node true := by
  cases rest with
  | nil => rfl
  | cons next rest' => rfl

/-- `Insert` takes a canonical tree over `lv` to the canonical tree over
`lv ++ [leaf]`. -/
theorem insert_build (lv : List N) (leaf : N) :
    insert hash (build hash lv) leaf = build hash (lv ++ [leaf]) := by
  obtain ⟨rest, he⟩ : ∃ rest, buildLevels hash (ceilLog2 lv.length) lv = lv :: rest := by
    cases hdc : ceilLog2 lv.length <;> exact ⟨_, rfl⟩
  have hlenrest : (lv :: rest).length - 1 = ceilLog2 lv.length := by
    rw [← he, buildLevels_length]
    omega
  have hpow : lv.length ≤ 2 ^ ceilLog2 lv.length := le_two_pow_ceilLog2 lv.length
  have hp1 : 1 ≤ 2 ^ ceilLog2 lv.length := Nat.one_le_two_pow
  have hbuild1 : build hash (lv ++ [leaf])
      = buildLevels hash (ceilLog2 (lv.length + 1)) (lv ++ [leaf]) := by
    rw [build, List.length_append, List.length_cons, List.length_nil]
  rw [build, he, insert]
  simp only [hlenrest]
  by_cases hgrow : ceilLog2 lv.length < ceilLog2 (lv.length + 1)
  · rw [if_pos hgrow, insertLevels_write]
    have hcons : lv :: (rest ++ [[]]) = buildLevels hash (ceilLog2 lv.length) lv ++ [[]] := by
      rw [he]
      rfl
    rw [hcons,
      insertLevels_build_pad hash (ceilLog2 lv.length) lv lv.length leaf le_rfl (by omega)
        (by rw [pow_succ]; omega)]
    have hd1 : ceilLog2 (lv.length + 1) = ceilLog2 lv.length + 1 := by
      have hle : ceilLog2 (lv.length + 1) ≤ ceilLog2 lv.length + 1 := by
        rw [ceilLog2_le_iff (by omega), pow_succ]
        omega
      omega
    rw [setAt_append, hbuild1, hd1]
  · rw [if_neg hgrow, insertLevels_write, ← he]
    have hle : ceilLog2 (lv.length + 1) ≤ ceilLog2 lv.length := by omega
    have hpow1 : lv.length + 1 ≤ 2 ^ ceilLog2 lv.length :=
      le_trans ((ceilLog2_le_iff (by omega)).mp le_rfl)
        (Nat.pow_le_pow_right (by omega) hle)
    rw [insertLevels_build hash (ceilLog2 lv.length) lv lv.length leaf le_rfl (by omega) hpow1]
    have hdeq : ceilLog2 (lv.length + 1) = ceilLog2 lv.length := by
      have := ceilLog2_mono (by omega : lv.length ≤ lv.length + 1)
      omega
    rw [setAt_append, hbuild1, hdeq]

/-- Overwriting one slot of a level moves `parentLevel` by exactly one `set`
at the parent position, with the `Update` step rule. -/
theorem parentLevel_set {cur : List N} {idx : Nat} (node : N) (h1 : idx < cur.length) :
    parentLevel hash (cur.set idx node) =
      (parentLevel hash cur).set (idx / 2) (updStep hash (cur.set idx node) idx node) := by
  have hlen' : (cur.set idx node).length = cur.length := List.length_set cur idx node
  have hplen : (parentLevel hash cur).length = (cur.length + 1) / 2 := parentLevel_length hash cur
  apply ext_nth
  · rw [parentLevel_length, hlen', List.length_set, hplen]
  · intro j hj
    rw [parentLevel_length, hlen'] at hj
    have h2j : 2 * j < (cur.set idx node).length := by rw [hlen']; omega
    have hRHS : nth ((parentLevel hash cur).set (idx / 2)
        (updStep hash (cur.set idx node) idx node)) j
        = if idx / 2 = j ∧ j < (parentLevel hash cur).length
          then updStep hash (cur.set idx node) idx node
          else nth (parentLevel hash cur) j :=
      nth_set _ _ _ _
    rw [nth_parentLevel hash _ j h2j, hRHS]
    by_cases hje : idx / 2 = j
    · subst hje
      have hcondR : idx / 2 = idx / 2 ∧ idx / 2 < (parentLevel hash cur).length :=
        ⟨rfl, by rw [hplen]; omega⟩
      rw [if_pos hcondR]
      simp only [updStep]
      rcases Nat.even_or_odd idx with hev | ho
      · have hm : idx % 2 = 0 := Nat.even_iff.mp hev
        have h2i : 2 * (idx / 2) = idx := by omega
        have hB : nth (cur.set idx node) (2 * (idx / 2)) = node := by
          rw [h2i, nth_set, if_pos ⟨rfl, h1⟩]
        by_cases hr : idx + 1 < cur.length
        · have hcondL : 2 * (idx / 2) + 1 < (cur.set idx node).length := by
            rw [hlen']
            omega
          have hcondR2 : idx + 1 < (cur.set idx node).length := by
            rw [hlen']
            omega
          have hidx1 : 2 * (idx / 2) + 1 = idx + 1 := by omega
          rw [if_pos hcondL, if_neg (by omega : ¬ idx % 2 = 1), if_pos hcondR2, hB, hidx1]
        · have hcondL : ¬ (2 * (idx / 2) + 1 < (cur.set idx node).length) := by
            rw [hlen']
            omega
          have hcondR2 : ¬ (idx + 1 < (cur.set idx node).length) := by
            rw [hlen']
            omega
          rw [if_neg hcondL, if_neg (by omega : ¬ idx % 2 = 1), if_neg hcondR2, hB]
      · have hm : idx % 2 = 1 := Nat.odd_iff.mp ho
        have h2i : 2 * (idx / 2) = idx - 1 := by omega
        have h2i1 : 2 * (idx / 2) + 1 = idx := by omega
        have hA : nth (cur.set idx node) (2 * (idx / 2) + 1) = node := by
          rw [h2i1, nth_set, if_pos ⟨rfl, h1⟩]
        have hcondL : 2 * (idx / 2) + 1 < (cur.set idx node).length := by
          rw [hlen']
          omega
        rw [if_pos hcondL, if_pos hm, hA, h2i]
    · have hcondR : ¬ (idx / 2 = j ∧ j < (parentLevel hash cur).length) := by
        intro hc
        exact hje hc.1
      rw [if_neg hcondR, nth_parentLevel hash cur j (by omega)]
      have hc1 : nth (cur.set idx node) (2 * j) = nth cur (2 * j) := by
        rw [nth_set, if_neg (by omega)]
      have hc2 : nth (cur.set idx node) (2 * j + 1) = nth cur (2 * j + 1) := by
        rw [nth_set, if_neg (by omega)]
      by_cases hpair : 2 * j + 1 < cur.length
      · have hcondL : 2 * j + 1 < (cur.set idx node).length := by
          rw [hlen']
          exact hpair
        rw [if_pos hcondL, if_pos hpair, hc1, hc2]
      · have hcondL : ¬ (2 * j + 1 < (cur.set idx node).length) := by
          rw [hlen']
          exact hpair
        rw [if_neg hcondL, if_neg hpair, hc1]

theorem updateLevels_build : ∀ (d : Nat) (cur : List N) (idx : Nat) (node : N),
    idx < cur.length → cur.length ≤ 2 ^ d →
    updateLevels hash (buildLevels hash d cur) idx node true
      = buildLevels hash d (cur.set idx node)
  | 0, cur, idx, node, h1, h2 => by
    simp only [pow_zero] at h2
    have hidx : idx = 0 := by omega
    subst hidx
    rw [buildLevels, buildLevels, updateLevels, ← setAt_of_lt node h1,
      setAt_zero_of_length_le_one node (by omega)]
  | d + 1, cur, idx, node, h1, h2 => by
    obtain ⟨next, rest, he⟩ : ∃ next rest,
        buildLevels hash d (parentLevel hash cur) = next :: rest := by
      cases d <;> exact ⟨_, _, rfl⟩
    have hcons : updateLevels hash (buildLevels hash (d + 1) cur) idx node true
        = setAt cur idx node :: updateLevels hash (buildLevels hash d (parentLevel hash cur))
            (idx / 2) (updStep hash (setAt cur idx node) idx node) true := by
      rw [buildLevels, he, updateLevels]
      rfl
    rw [hcons, setAt_of_lt node h1,
      updateLevels_build d (parentLevel hash cur) (idx / 2)
        (updStep hash (cur.set idx node) idx node)
        (by rw [parentLevel_length]; omega)
        (by rw [parentLevel_length, pow_succ] at *; omega)]
    conv_rhs => rw [buildLevels, parentLevel_set hash node h1]
decreasing_by omega

theorem updateLevels_write (lvl : List N) (rest : List (List N)) (idx : Nat) (node : N)
    (h : idx < lvl.length) :
    updateLevels hash (lvl.set idx node :: rest) idx node false
      = updateLevels hash (lvl :: rest) idx node true := by
  rw [← setAt_of_lt node h]
  cases rest with
  | nil => rfl
  | cons next rest' => rfl

/-- `Update` at a valid index takes the canonical tree over `lv` to the
canonical tree over `lv.set idx v`. -/
theorem update_build (lv : List N) (idx : Nat) (v : N) (h : idx < lv.length) :
    update hash (build hash lv) idx v = build hash (lv.set idx v) := by
  obtain ⟨rest, he⟩ : ∃ rest, buildLevels hash (ceilLog2 lv.length) lv = lv :: rest := by
    cases hdc : ceilLog2 lv.length <;> exact ⟨_, rfl⟩
  rw [build, he, update, if_pos h, updateLevels_write hash lv rest idx v h, ← he,
    updateLevels_build hash (ceilLog2 lv.length) lv idx v h (le_two_pow_ceilLog2 lv.length)]
  rw [build, List.length_set]

/-- `Update` at an out-of-range index is an error and leaves the tree
unchanged. -/
theorem update_build_oob (lv : List N) (idx : Nat) (v : N) (h : lv.length ≤ idx) :
    update hash (build hash lv) idx v = build hash lv := by
  obtain ⟨rest, he⟩ : ∃ rest, buildLevels hash (ceilLog2 lv.length) lv = lv :: rest := by
    cases hdc : ceilLog2 lv.length <;> exact ⟨_, rfl⟩
  rw [build, he, update, if_neg (by omega)]

theorem leanParent_eq_nth_parentLevel {lvl : List N} {i : Nat}
    (h : i < (parentLevel hash lvl).length) :
    leanParent hash lvl i = nth (parentLevel hash lvl) i := by
  rw [parentLevel_length] at h
  rw [nth_parentLevel hash lvl i (by omega), leanParent]

theorem recomputeRange_eq : ∀ (c i : Nat) (next lvl : List N),
    i ≤ next.length → next.length ≤ (parentLevel hash lvl).length →
    i + c = (parentLevel hash lvl).length →
    (∀ j, j < i → nth next j = nth (parentLevel hash lvl) j) →
    recomputeRange hash lvl next i c = parentLevel hash lvl
  | 0, i, next, lvl, h1, h2, h3, h4 => by
    rw [recomputeRange]
    exact ext_nth (by omega) (fun j hj => h4 j (by omega))
  | c + 1, i, next, lvl, h1, h2, h3, h4 => by
    rw [recomputeRange]
    apply recomputeRange_eq c (i + 1) _ lvl
    · rw [length_setAt]
      omega
    · rw [length_setAt]
      omega
    · omega
    · intro j hj
      rw [nth_setAt _ _ _ _ h1]
      by_cases hji : i = j
      · subst hji
        rw [if_pos rfl, leanParent_eq_nth_parentLevel hash (by omega)]
      · rw [if_neg hji]
        exact h4 j (by omega)

theorem insertManyLevels_eq : ∀ (stale : List (List N)) (cur : List N) (start : Nat),
    StaleOK hash cur start stale →
    insertManyLevels hash (cur :: stale) start = buildLevels hash stale.length cur
  | [], cur, start, _ => by
    rw [insertManyLevels, List.length_nil, buildLevels_zero]
  | next :: rest, cur, start, hok => by
    obtain ⟨h1, h2, h3, h4⟩ := hok
    rw [insertManyLevels]
    have hplen : (parentLevel hash cur).length = (cur.length + 1) / 2 :=
      parentLevel_length hash cur
    have hrec : recomputeRange hash cur next start ((cur.length + 1) / 2 - start)
        = parentLevel hash cur := by
      apply recomputeRange_eq hash _ start next cur h1 h2 (by omega) h3
    rw [hrec, insertManyLevels_eq rest (parentLevel hash cur) (start / 2) h4, List.length_cons,
      buildLevels_succ]

theorem StaleOK_pad : ∀ (k : Nat) (cur : List N),
    StaleOK hash cur 0 (List.replicate k [])
  | 0, cur => by rw [List.replicate, StaleOK]; trivial
  | k + 1, cur => by
    rw [List.replicate, StaleOK]
    exact ⟨by omega, by simp, fun j hj => by omega, StaleOK_pad k (parentLevel hash cur)⟩

theorem buildLevels_cons_tail (d : Nat) (lvl : List N) :
    buildLevels hash d lvl = lvl :: (buildLevels hash d lvl).tail := by
  cases d <;> rfl

theorem StaleOK_build : ∀ (d : Nat) (k : Nat) (old new : List N) (s : Nat),
    (∀ j, j < s → nth old j = nth new j) → old.length ≤ new.length →
    s ≤ old.length → old.length ≤ 2 ^ d →
    StaleOK hash new (s / 2) ((buildLevels hash d old).tail ++ List.replicate k [])
  | 0, k, old, new, s, hpre, hlen, hs, hfit => by
    have hs0 : s / 2 = 0 := by
      simp only [pow_zero] at hfit
      omega
    rw [buildLevels, List.tail_cons, List.nil_append, hs0]
    exact StaleOK_pad hash k new
  | d + 1, k, old, new, s, hpre, hlen, hs, hfit => by
    rw [buildLevels, List.tail_cons,
      buildLevels_cons_tail hash d (parentLevel hash old), List.cons_append, StaleOK]
    have hpagree : ∀ j, j < s / 2 →
        nth (parentLevel hash old) j = nth (parentLevel hash new) j := by
      intro j hj
      rw [nth_parentLevel hash old j (by omega), nth_parentLevel hash new j (by omega),
        if_pos (by omega : 2 * j + 1 < old.length),
        if_pos (by omega : 2 * j + 1 < new.length),
        hpre (2 * j) (by omega), hpre (2 * j + 1) (by omega)]
    refine ⟨?_, ?_, hpagree, ?_⟩
    · rw [parentLevel_length]
      omega
    · rw [parentLevel_length, parentLevel_length]
      omega
    · have := StaleOK_build d k (parentLevel hash old) (parentLevel hash new) (s / 2)
        hpagree
        (by rw [parentLevel_length, parentLevel_length]; omega)
        (by rw [parentLevel_length]; omega)
        (by rw [parentLevel_length, pow_succ] at *; omega)
      exact this

theorem insertMany_nil (nodes : List (List N)) : insertMany hash nodes [] = nodes := by
  rw [insertMany]

/-- `InsertMany` with a non-empty block takes the canonical tree over `lv` to
the canonical tree over `lv ++ L`. -/
theorem insertMany_build (lv L : List N) (hL : L ≠ []) :
    insertMany hash (build hash lv) L = build hash (lv ++ L) := by
  obtain ⟨a, as, hLc⟩ : ∃ a as, L = a :: as := by
    cases L with
    | nil => exact absurd rfl hL
    | cons a as => exact ⟨a, as, rfl⟩
  subst hLc
  obtain ⟨rest, he⟩ : ∃ rest, buildLevels hash (ceilLog2 lv.length) lv = lv :: rest := by
    cases hdc : ceilLog2 lv.length <;> exact ⟨_, rfl⟩
  have hrestlen : rest.length = ceilLog2 lv.length := by
    have := buildLevels_length hash (ceilLog2 lv.length) lv
    rw [he] at this
    simp only [List.length_cons] at this
    omega
  have hlenL0 : (lv ++ a :: as).length = lv.length + (a :: as).length :=
    List.length_append lv (a :: as)
  have hdmono : ceilLog2 lv.length ≤ ceilLog2 (lv ++ a :: as).length := by
    apply ceilLog2_mono
    rw [hlenL0]
    omega
  rw [build, he, insertMany]
  case x => exact hL
  have hstale : StaleOK hash (lv ++ a :: as) (lv.length / 2)
      (rest ++ List.replicate (ceilLog2 (lv ++ a :: as).length - ((lv :: rest).length - 1)) []) := by
    have htail : rest = (buildLevels hash (ceilLog2 lv.length) lv).tail := by
      rw [he, List.tail_cons]
    rw [htail]
    apply StaleOK_build hash (ceilLog2 lv.length) _ lv (lv ++ a :: as) lv.length
      (fun j hj => (nth_append_left (a :: as) hj).symm)
      (by rw [hlenL0]; omega) le_rfl (le_two_pow_ceilLog2 lv.length)
  rw [insertManyLevels_eq hash _ _ _ hstale]
  have hstalelen :
      (rest ++ List.replicate (ceilLog2 (lv ++ a :: as).length - ((lv :: rest).length - 1)) []).length
        = ceilLog2 (lv ++ a :: as).length := by
    rw [List.length_append, List.length_replicate, hrestlen]
    simp only [List.length_cons]
    omega
  rw [hstalelen, build]

theorem recomputeAt_eq : ∀ (mods : List Nat) (next lvl : List N),
    next.length = (parentLevel hash lvl).length →
    (∀ j, j < next.length → j ∉ mods → nth next j = nth (parentLevel hash lvl) j) →
    (∀ j ∈ mods, j < next.length) →
    recomputeAt hash lvl next mods = parentLevel hash lvl
  | [], next, lvl, h1, h2, h3 => by
    rw [recomputeAt]
    exact ext_nth h1 (fun j hj => h2 j hj (List.not_mem_nil j))
  | i :: rest, next, lvl, h1, h2, h3 => by
    have hi : i < next.length := h3 i (by simp)
    rw [recomputeAt]
    apply recomputeAt_eq rest _ lvl
    · rw [length_setAt]
      omega
    · intro j hj hjm
      rw [length_setAt] at hj
      rw [nth_setAt _ _ _ _ (by omega)]
      by_cases hji : i = j
      · subst hji
        rw [if_pos rfl, leanParent_eq_nth_parentLevel hash (by omega)]
      · rw [if_neg hji]
        apply h2 j (by omega)
        simp only [List.mem_cons, not_or]
        exact ⟨fun hc => hji hc.symm, hjm⟩
    · intro j hj
      rw [length_setAt]
      have := h3 j (by simp [hj])
      omega

theorem updateManyLevels_eq : ∀ (stale : List (List N)) (cur : List N) (mods : List Nat),
    ModOK hash cur mods stale →
    updateManyLevels hash (cur :: stale) mods = buildLevels hash stale.length cur
  | [], cur, mods, _ => by
    rw [updateManyLevels, List.length_nil, buildLevels_zero]
  | next :: rest, cur, mods, hok => by
    obtain ⟨h1, h2, h3, h4⟩ := hok
    rw [updateManyLevels, recomputeAt_eq hash mods next cur h1 h2 h3,
      updateManyLevels_eq rest (parentLevel hash cur) (mods.map (· / 2)) h4,
      List.length_cons, buildLevels_succ]

theorem ModOK_build : ∀ (d : Nat) (old new : List N) (S : List Nat),
    old.length = new.length →
    (∀ j, j < old.length → j ∉ S → nth old j = nth new j) →
    (∀ j ∈ S, j < old.length) →
    ModOK hash new (S.map (· / 2)) ((buildLevels hash d old).tail)
  | 0, old, new, S, hlen, hagree, hval => by
    rw [buildLevels_zero, List.tail_cons, ModOK]
    trivial
  | d + 1, old, new, S, hlen, hagree, hval => by
    rw [buildLevels_succ, List.tail_cons,
      buildLevels_cons_tail hash d (parentLevel hash old), ModOK]
    have hplen : (parentLevel hash old).length = (parentLevel hash new).length := by
      rw [parentLevel_length, parentLevel_length, hlen]
    have hchild : ∀ x, x ∈ S → x / 2 ∈ S.map (· / 2) := by
      intro x hx
      exact List.mem_map.mpr ⟨x, hx, rfl⟩
    have hagree' : ∀ j, j < (parentLevel hash old).length → j ∉ S.map (· / 2) →
        nth (parentLevel hash old) j = nth (parentLevel hash new) j := by
      intro j hj hjm
      rw [parentLevel_length] at hj
      have hm0 : 2 * j ∉ S := by
        intro hc
        have := hchild (2 * j) hc
        have he : 2 * j / 2 = j := by omega
        rw [he] at this
        exact hjm this
      have hm1 : 2 * j + 1 ∉ S := by
        intro hc
        have := hchild (2 * j + 1) hc
        have he : (2 * j + 1) / 2 = j := by omega
        rw [he] at this
        exact hjm this
      rw [nth_parentLevel hash old j (by omega), nth_parentLevel hash new j (by omega)]
      by_cases hpair : 2 * j + 1 < old.length
      · rw [if_pos hpair, if_pos (by omega), hagree (2 * j) (by omega) hm0,
          hagree (2 * j + 1) (by omega) hm1]
      · rw [if_neg hpair, if_neg (by omega), hagree (2 * j) (by omega) hm0]
    have hval' : ∀ j ∈ S.map (· / 2), j < (parentLevel hash old).length := by
      intro j hj
      obtain ⟨x, hx, hxe⟩ := List.mem_map.mp hj
      have := hval x hx
      rw [parentLevel_length]
      omega
    exact ⟨hplen, hagree', hval',
      ModOK_build d (parentLevel hash old) (parentLevel hash new) (S.map (· / 2))
        hplen hagree' hval'⟩

theorem writeAll_length : ∀ (lvl : List N) (is : List Nat) (vs : List N),
    (writeAll lvl is vs).length = lvl.length
  | lvl, [], vs => by rw [writeAll]
  | lvl, i :: is, [] => by rw [writeAll]
  | lvl, i :: is, v :: vs => by
    rw [writeAll, writeAll_length (lvl.set i v) is vs, List.length_set]

theorem writeAll_nth_not_mem : ∀ (lvl : List N) (is : List Nat) (vs : List N) (j : Nat),
    j ∉ is → nth (writeAll lvl is vs) j = nth lvl j
  | lvl, [], vs, j, hj => by rw [writeAll]
  | lvl, i :: is, [], j, hj => by rw [writeAll]
  | lvl, i :: is, v :: vs, j, hj => by
    rw [writeAll, writeAll_nth_not_mem (lvl.set i v) is vs j (by intro hc; exact hj (by simp [hc])),
      nth_set, if_neg (by intro hc; exact hj (by simp [hc.1]))]

/-- `UpdateMany` with valid arguments takes the canonical tree over `lv` to
the canonical tree over the rewritten leaf sequence. -/
theorem updateMany_build (lv : List N) (idxs : List Nat) (vals : List N)
    (hlen : idxs.length = vals.length) (hall : ∀ i ∈ idxs, i < lv.length)
    (hnd : idxs.Nodup) (hne : idxs ≠ []) :
    updateMany hash (build hash lv) idxs vals = build hash (writeAll lv idxs vals) := by
  obtain ⟨rest, he⟩ : ∃ rest, buildLevels hash (ceilLog2 lv.length) lv = lv :: rest := by
    cases hdc : ceilLog2 lv.length <;> exact ⟨_, rfl⟩
  have hrestlen : rest.length = ceilLog2 lv.length := by
    have := buildLevels_length hash (ceilLog2 lv.length) lv
    rw [he] at this
    simp only [List.length_cons] at this
    omega
  rw [build, he, updateMany, if_neg (by omega), if_neg (by push_neg; simpa using hall),
    if_neg (by simpa using hnd), if_neg hne]
  have hmod : ModOK hash (writeAll lv idxs vals) (idxs.map (· / 2)) rest := by
    have htail : rest = (buildLevels hash (ceilLog2 lv.length) lv).tail := by
      rw [he, List.tail_cons]
    rw [htail]
    exact ModOK_build hash (ceilLog2 lv.length) lv (writeAll lv idxs vals) idxs
      (writeAll_length lv idxs vals).symm
      (fun j hj hjm => (writeAll_nth_not_mem lv idxs vals j hjm).symm)
      hall
  rw [updateManyLevels_eq hash rest (writeAll lv idxs vals) (idxs.map (· / 2)) hmod,
    hrestlen, build, writeAll_length]

/-- `UpdateMany` with invalid arguments (or an empty batch) is an error (or a
no-op) and leaves the tree unchanged. -/
theorem updateMany_noop (nodes : List (List N)) (idxs : List Nat) (vals : List N)
    (h : ¬ (idxs.length = vals.length ∧ (∀ i ∈ idxs, i < sizeOf nodes) ∧
      idxs.Nodup ∧ idxs ≠ [])) :
    updateMany hash nodes idxs vals = nodes := by
  match nodes with
  | [] => rw [updateMany]
  | lvl0 :: rest =>
    rw [updateMany]
    by_cases h1 : idxs.length ≠ vals.length
    · rw [if_pos h1]
    · rw [if_neg h1]
      by_cases h2 : ¬ (∀ i ∈ idxs, i < lvl0.length)
      · rw [if_pos h2]
      · rw [if_neg h2]
        by_cases h3 : ¬ idxs.Nodup
        · rw [if_pos h3]
        · rw [if_neg h3]
          by_cases h4 : idxs = []
          · rw [if_pos h4]
          · exact absurd ⟨by omega, by push_neg at h2; exact h2, by push_neg at h3; exact h3, h4⟩ h

theorem build_nil : build hash ([] : List N) = [[]] := rfl

theorem sizeOf_build (lv : List N) : sizeOf (build hash lv) = lv.length := by
  rw [build, sizeOf, buildLevels_head]

theorem iterParent_succ : ∀ (d : Nat) (lvl : List N),
    iterParent hash (d + 1) lvl = parentLevel hash (iterParent hash d lvl)
  | 0, lvl => rfl
  | d + 1, lvl => by
    rw [iterParent, iterParent_succ d (parentLevel hash lvl)]
    rfl

/-- Every reachable tree state is the canonical node matrix of its leaf
sequence. -/
theorem reachable_build {t : List (List N)} (hr : Reachable hash t) :
    ∃ lv, t = build hash lv := by
  induction hr with
  | empty => exact ⟨[], rfl⟩
  | ins leaf _ ih =>
    obtain ⟨lv, rfl⟩ := ih
    exact ⟨lv ++ [leaf], insert_build hash lv leaf⟩
  | insMany leaves _ ih =>
    obtain ⟨lv, rfl⟩ := ih
    match leaves with
    | [] => exact ⟨lv, by rw [insertMany_nil]⟩
    | a :: as => exact ⟨lv ++ a :: as, insertMany_build hash lv (a :: as) (by simp)⟩
  | upd i v _ ih =>
    obtain ⟨lv, rfl⟩ := ih
    by_cases hiv : i < lv.length
    · exact ⟨lv.set i v, update_build hash lv i v hiv⟩
    · exact ⟨lv, update_build_oob hash lv i v (by omega)⟩
  | updMany is vs _ ih =>
    obtain ⟨lv, rfl⟩ := ih
    by_cases hc : is.length = vs.length ∧ (∀ i ∈ is, i < sizeOf (build hash lv)) ∧
        is.Nodup ∧ is ≠ []
    · obtain ⟨h1, h2, h3, h4⟩ := hc
      refine ⟨writeAll lv is vs, updateMany_build hash lv is vs h1 ?_ h3 h4⟩
      intro i hi
      have := h2 i hi
      rwa [sizeOf_build] at this
    · exact ⟨lv, updateMany_noop hash _ is vs hc⟩

/-- C2.  Every tree state reachable from the empty tree by Insert, InsertMany,
Update and UpdateMany satisfies the node-matrix invariant: the depth is
`ceilLog2 (max size 1)`; the top level has exactly one element when the tree
is non-empty and none when it is empty; every parent with two children is
their hash; and every parent whose right child is missing equals its left
child (lean rule). -/
theorem c2_node_matrix_invariant {hash : N → N → N} {t : List (List N)}
    (hr : Reachable hash t) :
    t.length - 1 = ceilLog2 (max (sizeOf t) 1) ∧
    (levelAt t (t.length - 1)).length = (if 0 < sizeOf t then 1 else 0) ∧
    (∀ l i, l + 1 < t.length → 2 * i + 1 < (levelAt t l).length →
      nth (levelAt t (l + 1)) i
        = hash (nth (levelAt t l) (2 * i)) (nth (levelAt t l) (2 * i + 1))) ∧
    (∀ l i, l + 1 < t.length → i < (levelAt t (l + 1)).length →
      (levelAt t l).length ≤ 2 * i + 1 →
      nth (levelAt t (l + 1)) i = nth (levelAt t l) (2 * i)) := by
  obtain ⟨lv, rfl⟩ := reachable_build hash hr
  have hlen : (build hash lv).length = ceilLog2 lv.length + 1 := by
    rw [build, buildLevels_length]
  have hsize : sizeOf (build hash lv) = lv.length := sizeOf_build hash lv
  have hmax : ceilLog2 (max lv.length 1) = ceilLog2 lv.length := by
    match lv with
    | [] => rfl
    | a :: as =>
      have : max (a :: as).length 1 = (a :: as).length := by
        simp only [List.length_cons]
        omega
      rw [this]
  have hlevel : ∀ l, l ≤ ceilLog2 lv.length →
      levelAt (build hash lv) l = iterParent hash l lv := by
    intro l hl
    rw [build]
    exact levelAt_buildLevels hash _ l lv hl
  refine ⟨by rw [hlen, hsize, hmax]; omega, ?_, ?_, ?_⟩
  · rw [hlen, hsize]
    have htop := hlevel (ceilLog2 lv.length) le_rfl
    have he : ceilLog2 lv.length + 1 - 1 = ceilLog2 lv.length := by omega
    rw [he, htop]
    match lv with
    | [] =>
      have hz : ceilLog2 (List.length ([] : List N)) = 0 := rfl
      rw [hz, if_neg (by simp)]
      rfl
    | a :: as =>
      rw [if_pos (by simp)]
      exact iterParent_length_one hash (by simp) (le_two_pow_ceilLog2 _)
  · intro l i hl hpair
    have hld : l + 1 ≤ ceilLog2 lv.length := by omega
    rw [hlevel l (by omega)] at hpair ⊢
    rw [hlevel (l + 1) hld, iterParent_succ,
      nth_parentLevel hash _ i (by omega), if_pos hpair]
  · intro l i hl hi hlean
    have hld : l + 1 ≤ ceilLog2 lv.length := by omega
    rw [hlevel (l + 1) hld, iterParent_succ] at hi ⊢
    rw [hlevel l (by omega)] at hlean ⊢
    rw [parentLevel_length] at hi
    rw [nth_parentLevel hash _ i (by omega), if_neg (by omega)]

/-- C10.  `Insert` has no error branch: on every tree state (the handle always
holds at least the leaf level) it returns nil and the size grows by exactly
one. -/
theorem c10_insert_total_size_succ {hash : N → N → N} (nodes : List (List N)) (leaf : N)
    (h : nodes ≠ []) :
    sizeOf (insert hash nodes leaf) = sizeOf nodes + 1 := by
  match nodes with
  | lvl0 :: rest =>
    rw [insert]
    by_cases hg : (lvl0 :: rest).length - 1 < ceilLog2 (lvl0.length + 1)
    · rw [if_pos hg]
      obtain ⟨next, rest2, he⟩ : ∃ next rest2, rest ++ [[]] = next :: rest2 := by
        cases rest <;> exact ⟨_, _, rfl⟩
      rw [he, insertLevels]
      simp only [cond_false, sizeOf, List.headD_cons, length_setAt]
      omega
    · rw [if_neg hg]
      cases rest with
      | nil =>
        have hc0 : ceilLog2 (lvl0.length + 1) = 0 := by
          simp only [List.length_cons, List.length_nil] at hg
          omega
        have hn : lvl0.length = 0 := by
          have hle : ceilLog2 (lvl0.length + 1) ≤ 0 := by omega
          have := (ceilLog2_le_iff (show 1 ≤ lvl0.length + 1 by omega)).mp hle
          simp only [pow_zero] at this
          omega
        rw [insertLevels]
        simp [sizeOf, hn]
      | cons next rest2 =>
        rw [insertLevels]
        simp only [cond_false, sizeOf, List.headD_cons, length_setAt]
        omega

theorem foldl_insert_build (lv L : List N) :
    L.foldl (insert hash) (build hash lv) = build hash (lv ++ L) := by
  induction L generalizing lv with
  | nil => rw [List.foldl_nil, List.append_nil]
  | cons a as ih =>
    rw [List.foldl_cons, insert_build hash lv a, ih (lv ++ [a]),
      List.append_assoc, List.singleton_append]

/-- C4.  On every reachable tree, `InsertMany L` and the fold of single
`Insert`s of the elements of `L` produce the same tree, hence equal roots;
in particular on the empty tree (empty `L` is an error for `InsertMany` and
mutates nothing, and the fold is likewise the identity). -/
theorem c4_insertMany_eq_folded_inserts {hash : N → N → N} {t : List (List N)}
    (hr : Reachable hash t) (L : List N) :
    rootOf (insertMany hash t L) = rootOf (L.foldl (insert hash) t) := by
  obtain ⟨lv, rfl⟩ := reachable_build hash hr
  rw [foldl_insert_build]
  match L with
  | [] => rw [insertMany_nil, List.append_nil]
  | a :: as => rw [insertMany_build hash lv (a :: as) (by simp)]

theorem dropLast_buildLevels_succ (d : Nat) (lvl : List N) :
    (buildLevels hash (d + 1) lvl).dropLast
      = lvl :: (buildLevels hash d (parentLevel hash lvl)).dropLast := by
  rw [buildLevels_succ]
  obtain ⟨x, xs, he⟩ : ∃ x xs, buildLevels hash d (parentLevel hash lvl) = x :: xs := by
    cases d <;> exact ⟨_, _, rfl⟩
  rw [he]
  rfl

theorem rootOf_build_pos (lv : List N) (h : 0 < lv.length) :
    rootOf (build hash lv) = some (nth (iterParent hash (ceilLog2 lv.length) lv) 0) := by
  have hone : (iterParent hash (ceilLog2 lv.length) lv).length = 1 :=
    iterParent_length_one hash (by omega) (le_two_pow_ceilLog2 lv.length)
  rw [build, rootOf, buildLevels_getLast]
  simp only [hone]
  rw [if_neg (by omega)]

/-- The verifier recomputes, from the recorded siblings and packed bits of the
path of leaf `idx`, exactly the root of the canonical tree. -/
theorem verifyLoop_pathPairs : ∀ (d : Nat) (cur : List N) (idx : Nat),
    idx < cur.length → cur.length ≤ 2 ^ d →
    verifyLoop hash (nth cur idx)
        (packBits ((pathPairs (buildLevels hash d cur).dropLast idx).map Prod.snd))
        ((pathPairs (buildLevels hash d cur).dropLast idx).map Prod.fst)
      = nth (iterParent hash d cur) 0
  | 0, cur, idx, h1, h2 => by
    simp only [pow_zero] at h2
    have hidx : idx = 0 := by omega
    subst hidx
    rw [buildLevels_zero]
    show verifyLoop hash (nth cur 0) _ _ = _
    rw [List.dropLast_single, pathPairs, List.map_nil, List.map_nil, verifyLoop, iterParent]
  | d + 1, cur, idx, h1, h2 => by
    rw [dropLast_buildLevels_succ, pathPairs]
    have hplen : (parentLevel hash cur).length = (cur.length + 1) / 2 :=
      parentLevel_length hash cur
    have hfit : (parentLevel hash cur).length ≤ 2 ^ d := by
      rw [hplen]
      rw [pow_succ] at h2
      omega
    have hidx2 : idx / 2 < (parentLevel hash cur).length := by
      rw [hplen]
      omega
    have htop : iterParent hash (d + 1) cur = iterParent hash d (parentLevel hash cur) := rfl
    by_cases hodd : idx % 2 = 1
    · rw [if_pos hodd]
      simp only [List.map_cons]
      rw [packBits, verifyLoop, if_pos (by simp only [cond_true]; omega)]
      have hk : (cond true 1 0 + 2 * packBits ((pathPairs
          (buildLevels hash d (parentLevel hash cur)).dropLast (idx / 2)).map Prod.snd)) / 2
          = packBits ((pathPairs
            (buildLevels hash d (parentLevel hash cur)).dropLast (idx / 2)).map Prod.snd) := by
        simp only [cond_true]
        omega
      have hn : hash (nth cur (idx - 1)) (nth cur idx) = nth (parentLevel hash cur) (idx / 2) := by
        rw [nth_parentLevel hash cur (idx / 2) (by omega), if_pos (by omega)]
        have e1 : 2 * (idx / 2) = idx - 1 := by omega
        have e2 : 2 * (idx / 2) + 1 = idx := by omega
        rw [e2, e1]
      rw [hk, hn, htop]
      exact verifyLoop_pathPairs d (parentLevel hash cur) (idx / 2) hidx2 hfit
    · rw [if_neg hodd]
      by_cases hright : idx + 1 < cur.length
      · rw [if_pos hright]
        simp only [List.map_cons]
        rw [packBits, verifyLoop, if_neg (by simp only [cond_false]; omega)]
        have hn : hash (nth cur idx) (nth cur (idx + 1))
            = nth (parentLevel hash cur) (idx / 2) := by
          rw [nth_parentLevel hash cur (idx / 2) (by omega), if_pos (by omega)]
          have e1 : 2 * (idx / 2) = idx := by omega
          have e2 : 2 * (idx / 2) + 1 = idx + 1 := by omega
          rw [e2, e1]
        have hdiv : (cond false 1 0 + 2 * packBits ((pathPairs
            (buildLevels hash d (parentLevel hash cur)).dropLast (idx / 2)).map Prod.snd)) / 2
            = packBits ((pathPairs
              (buildLevels hash d (parentLevel hash cur)).dropLast (idx / 2)).map Prod.snd) := by
          simp only [cond_false]
          omega
        rw [hdiv, hn, htop]
        exact verifyLoop_pathPairs d (parentLevel hash cur) (idx / 2) hidx2 hfit
      · rw [if_neg hright]
        have hn : nth cur idx = nth (parentLevel hash cur) (idx / 2) := by
          rw [nth_parentLevel hash cur (idx / 2) (by omega), if_neg (by omega)]
          have e1 : 2 * (idx / 2) = idx := by omega
          rw [e1]
        rw [hn, htop]
        exact verifyLoop_pathPairs d (parentLevel hash cur) (idx / 2) hidx2 hfit

/-- C1.  On every reachable tree and every valid index, the proof produced by
`GenerateProof` verifies with the tree's hash and equality functions. -/
theorem c1_proof_roundtrip {hash : N → N → N} {eqf : N → N → Bool} {t : List (List N)}
    (hr : Reachable hash t) (heq : ∀ a, eqf a a = true) {i : Nat} (hi : i < sizeOf t) :
    ∃ p, generateProof t i = some p ∧ VerifyProofWith hash eqf p = true := by
  obtain ⟨lv, rfl⟩ := reachable_build hash hr
  rw [sizeOf_build] at hi
  have hgen : generateProof (build hash lv) i = some
      { root := nth (iterParent hash (ceilLog2 lv.length) lv) 0
        leaf := nth lv i
        index := packBits ((pathPairs (build hash lv).dropLast i).map Prod.snd)
        siblings := (pathPairs (build hash lv).dropLast i).map Prod.fst } := by
    rw [generateProof, if_pos (by rw [sizeOf_build]; exact hi),
      rootOf_build_pos hash lv (by omega)]
    rw [build, buildLevels_head]
    rfl
  refine ⟨_, hgen, ?_⟩
  rw [VerifyProofWith]
  show eqf (verifyLoop hash (nth lv i) _ _) _ = true
  rw [build, verifyLoop_pathPairs hash (ceilLog2 lv.length) lv i hi (le_two_pow_ceilLog2 _)]
  exact heq _

theorem pathPairs_length_le : ∀ (ls : List (List N)) (idx : Nat),
    (pathPairs ls idx).length ≤ ls.length
  | [], _ => Nat.le_refl 0
  | lvl :: rest, idx => by
    rw [pathPairs]
    by_cases h1 : idx % 2 = 1
    · rw [if_pos h1]
      simp only [List.length_cons]
      exact Nat.succ_le_succ (pathPairs_length_le rest (idx / 2))
    · rw [if_neg h1]
      by_cases h2 : idx + 1 < lvl.length
      · rw [if_pos h2]
        simp only [List.length_cons]
        exact Nat.succ_le_succ (pathPairs_length_le rest (idx / 2))
      · rw [if_neg h2]
        simp only [List.length_cons]
        exact Nat.le_succ_of_le (pathPairs_length_le rest (idx / 2))

theorem packBits_lt : ∀ bs : List Bool, packBits bs < 2 ^ bs.length
  | [] => by simp [packBits]
  | b :: rest => by
    have ih := packBits_lt rest
    rw [packBits, List.length_cons, pow_succ]
    cases b <;> simp only [cond_true, cond_false] <;> omega

theorem packBits_div_two_pow : ∀ (k : Nat) (bs : List Bool),
    packBits bs / 2 ^ k % 2 = cond (bs.getD k false) 1 0
  | 0, [] => by simp [packBits]
  | 0, b :: rest => by
    rw [packBits, pow_zero, Nat.div_one]
    cases b <;> simp only [cond_true, cond_false, List.getD_cons_zero] <;> omega
  | k + 1, [] => by simp [packBits]
  | k + 1, b :: rest => by
    have ih := packBits_div_two_pow k rest
    rw [packBits]
    have hd : (cond b 1 0 + 2 * packBits rest) / 2 ^ (k + 1) = packBits rest / 2 ^ k := by
      rw [pow_succ', ← Nat.div_div_eq_div_mul]
      have h2 : (cond b 1 0 + 2 * packBits rest) / 2 = packBits rest := by
        cases b <;> simp only [cond_true, cond_false] <;> omega
      rw [h2]
    rw [hd, ih, List.getD_cons_succ]

/-- When the leaf level holds at least two nodes, the sibling walk records at
least one pair: either the first level has a sibling, or the index is the last
even position and the walk recurses on a still two-element parent level. -/
theorem pathPairs_ne_nil : ∀ (d : Nat) (cur : List N) (idx : Nat),
    2 ≤ cur.length → idx < cur.length → cur.length ≤ 2 ^ d →
    pathPairs (buildLevels hash d cur).dropLast idx ≠ []
  | 0, cur, _, h2, _, hle => by
    rw [pow_zero] at hle
    omega
  | d + 1, cur, idx, h2, h1, hle => by
    rw [dropLast_buildLevels_succ, pathPairs]
    by_cases hodd : idx % 2 = 1
    · rw [if_pos hodd]
      exact List.cons_ne_nil _ _
    · rw [if_neg hodd]
      by_cases hright : idx + 1 < cur.length
      · rw [if_pos hright]
        exact List.cons_ne_nil _ _
      · rw [if_neg hright]
        have h3 : 3 ≤ cur.length := by omega
        have hplen := parentLevel_length hash cur
        have hp2 : 2 ≤ (parentLevel hash cur).length := by omega
        refine pathPairs_ne_nil d (parentLevel hash cur) (idx / 2) hp2 (by omega) ?_
        rw [pow_succ] at hle
        omega

/-- Over the canonical level stack, the generator's sibling walk computes
exactly the per-level record described by `recordAt`. -/
theorem pathPairs_buildLevels : ∀ (d : Nat) (cur : List N) (idx : Nat),
    pathPairs (buildLevels hash d cur).dropLast idx
      = (List.range d).filterMap (recordAt (buildLevels hash d cur) idx)
  | 0, _, _ => rfl
  | d + 1, cur, idx => by
    have ih := pathPairs_buildLevels d (parentLevel hash cur) (idx / 2)
    have hfun : ∀ l : Nat,
        recordAt (buildLevels hash (d + 1) cur) idx (l + 1)
          = recordAt (buildLevels hash d (parentLevel hash cur)) (idx / 2) l := by
      intro l
      have hlvl : levelAt (buildLevels hash (d + 1) cur) (l + 1)
          = levelAt (buildLevels hash d (parentLevel hash cur)) l := by
        rw [buildLevels_succ]
        rfl
      have hdiv : idx / 2 ^ (l + 1) = idx / 2 / 2 ^ l := by
        rw [Nat.div_div_eq_div_mul, ← pow_succ']
      simp only [recordAt]
      rw [hlvl, hdiv]
    have hcomp : recordAt (buildLevels hash (d + 1) cur) idx ∘ Nat.succ
        = recordAt (buildLevels hash d (parentLevel hash cur)) (idx / 2) :=
      funext fun l => hfun l
    have h0lvl : levelAt (buildLevels hash (d + 1) cur) 0 = cur := by
      rw [buildLevels_succ]
      rfl
    rw [dropLast_buildLevels_succ, pathPairs, List.range_succ_eq_map]
    by_cases hodd : idx % 2 = 1
    · rw [if_pos hodd,
        List.filterMap_cons_some (show recordAt (buildLevels hash (d + 1) cur) idx 0
          = some (nth cur (idx - 1), true) by
            simp only [recordAt, h0lvl, pow_zero, Nat.div_one]
            rw [if_pos hodd]),
        List.filterMap_map, hcomp, ← ih]
    · rw [if_neg hodd]
      by_cases hright : idx + 1 < cur.length
      · rw [if_pos hright,
          List.filterMap_cons_some (show recordAt (buildLevels hash (d + 1) cur) idx 0
            = some (nth cur (idx + 1), false) by
              simp only [recordAt, h0lvl, pow_zero, Nat.div_one]
              rw [if_neg hodd, if_pos hright]),
          List.filterMap_map, hcomp, ← ih]
      · rw [if_neg hright,
          List.filterMap_cons_none (show recordAt (buildLevels hash (d + 1) cur) idx 0
            = none by
              simp only [recordAt, h0lvl, pow_zero, Nat.div_one]
              rw [if_neg hodd, if_neg hright]),
          List.filterMap_map, hcomp, ← ih]

/-- C5.  On every reachable tree and valid index, `GenerateProof` records
exactly the actually-present siblings level by level (`recordedPairs`: left
sibling with bit 1 at odd positions, right sibling with bit 0 when present,
nothing on the lean skip), packs the bits LSB-first into `index`, and the
sibling count is at most the depth, is zero exactly for the singleton tree,
and bounds the packed index. -/
theorem c5_generate_proof_records {hash : N → N → N} {t : List (List N)}
    (hr : Reachable hash t) {i : Nat} (hi : i < sizeOf t) :
    ∃ p, generateProof t i = some p ∧
      p.siblings = (recordedPairs t i).map Prod.fst ∧
      p.index = packBits ((recordedPairs t i).map Prod.snd) ∧
      p.siblings.length ≤ t.length - 1 ∧
      (p.siblings.length = 0 ↔ sizeOf t = 1) ∧
      p.index < 2 ^ p.siblings.length ∧
      ∀ k, p.index / 2 ^ k % 2
          = cond (((recordedPairs t i).map Prod.snd).getD k false) 1 0 := by
  obtain ⟨lv, rfl⟩ := reachable_build hash hr
  rw [sizeOf_build] at hi
  have hpp : pathPairs (build hash lv).dropLast i = recordedPairs (build hash lv) i := by
    rw [build, pathPairs_buildLevels hash (ceilLog2 lv.length) lv i, recordedPairs]
    congr 1
    rw [buildLevels_length]
    congr 1
  have hcond : i < sizeOf (build hash lv) := by
    rw [sizeOf_build]
    exact hi
  refine ⟨{ root := (rootOf (build hash lv)).getD default
            leaf := nth ((build hash lv).headD []) i
            index := packBits ((recordedPairs (build hash lv) i).map Prod.snd)
            siblings := (recordedPairs (build hash lv) i).map Prod.fst },
    ?_, rfl, rfl, ?_, ?_, ?_, ?_⟩
  · rw [generateProof, if_pos hcond]
    simp only [hpp]
  · rw [List.length_map, ← hpp]
    have h := pathPairs_length_le (build hash lv).dropLast i
    rw [List.length_dropLast] at h
    exact h
  · rw [List.length_map, ← hpp, sizeOf_build]
    constructor
    · intro h0
      by_contra hne
      exact pathPairs_ne_nil hash (ceilLog2 lv.length) lv i (by omega) hi
        (le_two_pow_ceilLog2 _) (List.length_eq_zero.mp h0)
    · intro h1
      rw [build, show ceilLog2 lv.length = 0 by rw [h1]; rfl, buildLevels_zero]
      rfl
  · have h := packBits_lt ((recordedPairs (build hash lv) i).map Prod.snd)
    rw [List.length_map] at h
    rw [List.length_map]
    exact h
  · intro k
    exact packBits_div_two_pow k _

/-- C8.  For every address below `2^160` and weight below `2^88`, packing
succeeds (no panic branch fires) with value `address * 2^88 + weight`, and
unpacking that value returns exactly the original pair. -/
theorem c8_pack_unpack_roundtrip {address weight : Nat}
    (ha : address < 2 ^ 160) (hw : weight < 2 ^ 88) :
    PackAddressWeight address weight = some (address * 2 ^ 88 + weight) ∧
    UnpackAddressWeight (address * 2 ^ 88 + weight) = (address, weight) := by
  have hba : bitLen address ≤ 160 := (bitLen_le address 160).mpr ha
  have hbw : bitLen weight ≤ 88 := (bitLen_le weight 88).mpr hw
  constructor
  · rw [PackAddressWeight, if_neg (by omega), if_neg (by omega)]
    congr 1
    rw [Nat.shiftLeft_eq, Nat.mul_comm address (2 ^ 88), ← Nat.mul_add_lt_is_or hw address]
  · show ((address * 2 ^ 88 + weight) >>> 88,
        (address * 2 ^ 88 + weight) &&& (1 <<< 88 - 1)) = (address, weight)
    have h1 : (address * 2 ^ 88 + weight) >>> 88 = address := by
      rw [Nat.shiftRight_eq_div_pow, Nat.mul_comm address (2 ^ 88),
        Nat.mul_add_div (Nat.two_pow_pos 88), Nat.div_eq_of_lt hw, Nat.add_zero]
    have h2 : (address * 2 ^ 88 + weight) &&& (1 <<< 88 - 1) = weight := by
      rw [Nat.shiftLeft_eq, Nat.one_mul, Nat.and_pow_two_sub_one_eq_mod,
        Nat.mul_comm address (2 ^ 88), Nat.mul_add_mod, Nat.mod_eq_of_lt hw]
    rw [h1, h2]

theorem alookup_mem : ∀ {m : List (Nat × Nat)} {k v : Nat},
    alookup m k = some v → (k, v) ∈ m
  | [], k, v, h => by rw [alookup] at h; cases h
  | (k', v') :: rest, k, v, h => by
    rw [alookup] at h
    by_cases he : k' = k
    · subst he
      rw [if_pos rfl] at h
      injection h with hv
      subst hv
      exact List.mem_cons_self _ _
    · rw [if_neg he] at h
      exact List.mem_cons_of_mem _ (alookup_mem h)

theorem alookup_aset_self : ∀ (m : List (Nat × Nat)) (k v : Nat),
    alookup (aset m k v) k = some v
  | [], k, v => by rw [aset, alookup, if_pos rfl]
  | (k', v') :: rest, k, v => by
    rw [aset]
    by_cases he : k' = k
    · rw [if_pos he, alookup, if_pos rfl]
    · rw [if_neg he, alookup, if_neg he]
      exact alookup_aset_self rest k v

theorem alookup_aset_ne : ∀ (m : List (Nat × Nat)) (k v a : Nat), a ≠ k →
    alookup (aset m k v) a = alookup m a
  | [], k, v, a, h => by
    rw [aset]
    simp only [alookup]
    rw [if_neg (fun hh => h hh.symm)]
  | (k', v') :: rest, k, v, a, h => by
    rw [aset]
    by_cases he : k' = k
    · subst he
      rw [if_pos rfl, alookup, alookup, if_neg (fun hh => h hh.symm),
        if_neg (fun hh => h hh.symm)]
    · rw [if_neg he, alookup, alookup]
      by_cases ha : k' = a
      · rw [if_pos ha, if_pos ha]
      · rw [if_neg ha, if_neg ha]
        exact alookup_aset_ne rest k v a h

/-- C9.  Census `Update`: an absent address reports `ErrAddressNotFound` and
leaves the census untouched; a present address gets its leaf replaced by
`pack(address, newWeight)` at its existing index, keeps both direction maps,
gets its stored weight replaced, and the census invariant is preserved. -/
theorem c9_census_update {hasher : Nat → Nat → Nat} {c : Census} {addr w : Nat}
    (hinv : CensusInv hasher c) (hw : w < 2 ^ 88) :
    (alookup c.addressIndex addr = none →
      censusUpdate hasher c addr w = some (c, some CensusErr.addressNotFound)) ∧
    ∀ idx, alookup c.addressIndex addr = some idx →
      ∃ c', censusUpdate hasher c addr w = some (c', none) ∧
        c'.addressIndex = c.addressIndex ∧
        c'.indexToAddress = c.indexToAddress ∧
        alookup c'.weights addr = some w ∧
        (∀ a, a ≠ addr → alookup c'.weights a = alookup c.weights a) ∧
        sizeOf c'.tree = sizeOf c.tree ∧
        nth (c'.tree.headD []) idx = addr * 2 ^ 88 + w ∧
        (∀ j, j ≠ idx → nth (c'.tree.headD []) j = nth (c.tree.headD []) j) ∧
        CensusInv hasher c' := by
  obtain ⟨htree, hmemP, hinj2, hinj1⟩ := hinv
  constructor
  · intro hnone
    simp only [censusUpdate, hnone]
  · intro idx hsome
    have hmem := alookup_mem hsome
    obtain ⟨hidx, haddr, w0, hw0look, hw0lt, hw0leaf⟩ := hmemP (addr, idx) hmem
    set lv := c.tree.headD [] with hlv
    have hsz : sizeOf c.tree = lv.length := by rw [htree, sizeOf_build]
    have hpack : PackAddressWeight addr w = some (addr * 2 ^ 88 + w) := by
      rw [PackAddressWeight, if_neg (by have := (bitLen_le addr 160).mpr haddr; omega),
        if_neg (by have := (bitLen_le w 88).mpr hw; omega)]
      congr 1
      rw [Nat.shiftLeft_eq, Nat.mul_comm addr (2 ^ 88), ← Nat.mul_add_lt_is_or hw addr]
    have hup : update hasher c.tree idx (addr * 2 ^ 88 + w)
        = build hasher (lv.set idx (addr * 2 ^ 88 + w)) := by
      rw [htree]
      exact update_build hasher lv idx _ (by omega)
    have hhead : (update hasher c.tree idx (addr * 2 ^ 88 + w)).headD []
        = lv.set idx (addr * 2 ^ 88 + w) := by
      rw [hup, build]
      exact buildLevels_head hasher _ _
    have hsz' : sizeOf (update hasher c.tree idx (addr * 2 ^ 88 + w)) = sizeOf c.tree := by
      rw [hup, sizeOf_build, List.length_set]
      exact hsz.symm
    refine ⟨{ c with
        tree := update hasher c.tree idx (addr * 2 ^ 88 + w)
        weights := aset c.weights addr w },
      ?_, rfl, rfl, alookup_aset_self _ _ _,
      fun a ha => alookup_aset_ne _ _ _ _ ha, hsz', ?_, ?_, ?_, ?_, ?_, ?_⟩
    · simp only [censusUpdate, hsome, hpack]
      rw [if_pos hidx]
    · rw [hhead, nth_set, if_pos ⟨rfl, by omega⟩]
    · intro j hj
      rw [hhead, nth_set, if_neg (fun hc => hj hc.1.symm)]
    · show update hasher c.tree idx (addr * 2 ^ 88 + w)
        = build hasher ((update hasher c.tree idx (addr * 2 ^ 88 + w)).headD [])
      rw [hhead, hup]
    · intro p hp
      obtain ⟨hp2, hp1, wp, hwp, hwplt, hwpleaf⟩ := hmemP p hp
      refine ⟨by show p.2 < sizeOf (update hasher c.tree idx (addr * 2 ^ 88 + w)); omega,
        hp1, ?_⟩
      by_cases hpa : p.1 = addr
      · have hpeq : p = (addr, idx) := hinj1 p hp (addr, idx) hmem hpa
        subst hpeq
        exact ⟨w, alookup_aset_self _ _ _, hw, by rw [hhead, nth_set, if_pos ⟨rfl, by omega⟩]⟩
      · have hpi : p.2 ≠ idx := fun he => hpa (by rw [hinj2 p hp (addr, idx) hmem he])
        refine ⟨wp, ?_, hwplt, ?_⟩
        · rw [alookup_aset_ne c.weights addr w p.1 hpa]
          exact hwp
        · rw [hhead, nth_set, if_neg (fun hc => hpi hc.1.symm)]
          exact hwpleaf
    · exact hinj2
    · exact hinj1

/-- C3 (amended).  `ImportAll` replaces the in-memory census wholesale before
the root comparison: its result never depends on the prior census, and on a
root mismatch it returns `ErrBadCensusDump` together with the already-rebuilt
state, not the caller's previous state. -/
theorem c3_import_root_mismatch (hasher : Nat → Nat → Nat)
    (c c' : Census) (dump : CensusDump) :
    importAll hasher c dump = importAll hasher c' dump ∧
    ∀ c1 n r, (sortParticipants dump.participants).foldl (importStep hasher)
        (some (freshCensus, 0)) = some (c1, n) →
      rootOf c1.tree = some r → r ≠ dump.root →
      importAll hasher c dump = some (c1, some CensusErr.badCensusDump) := by
  refine ⟨rfl, ?_⟩
  intro c1 n r hfold hroot hne
  simp only [importAll, hfold, hroot]
  rw [if_neg hne]

/-- C3 counterexample: a mismatching declared root makes `ImportAll` return
`ErrBadCensusDump`, yet the returned in-memory census is the rebuilt one and
differs from the census the call started from — the failed call does leave
the census mutated. -/
theorem c3_import_mutates_counterexample :
    importAll bigIntHasher
        { tree := [[5]], addressIndex := [(1, 0)], indexToAddress := [(0, 1)],
          weights := [(1, 10)] }
        { root := 0, participants := [{ index := 0, address := 2, weight := some 20 }] }
      = some ({ tree := [[618970019642690137449562132]], addressIndex := [(2, 0)],
                indexToAddress := [(0, 2)], weights := [(2, 20)] },
          some CensusErr.badCensusDump) ∧
    ({ tree := [[618970019642690137449562132]], addressIndex := [(2, 0)],
        indexToAddress := [(0, 2)], weights := [(2, 20)] } : Census)
      ≠ { tree := [[5]], addressIndex := [(1, 0)], indexToAddress := [(0, 1)],
          weights := [(1, 10)] } := by
  constructor
  · simp only [importAll, sortParticipants, List.mergeSort_singleton]
    rfl
  · decide

/-- Witness for C3: the amended theorem applied to the counterexample's
census and dump, with the fold result, root and mismatch all concrete. -/
theorem c3_import_root_mismatch_witness :
    importAll bigIntHasher
        { tree := [[5]], addressIndex := [(1, 0)], indexToAddress := [(0, 1)],
          weights := [(1, 10)] }
        { root := 0, participants := [{ index := 0, address := 2, weight := some 20 }] }
      = some ({ tree := [[618970019642690137449562132]], addressIndex := [(2, 0)],
                indexToAddress := [(0, 2)], weights := [(2, 20)] },
          some CensusErr.badCensusDump) :=
  (c3_import_root_mismatch bigIntHasher
      { tree := [[5]], addressIndex := [(1, 0)], indexToAddress := [(0, 1)],
        weights := [(1, 10)] }
      freshCensus
      { root := 0, participants := [{ index := 0, address := 2, weight := some 20 }] }).2
    { tree := [[618970019642690137449562132]], addressIndex := [(2, 0)],
      indexToAddress := [(0, 2)], weights := [(2, 20)] }
    1 618970019642690137449562132
    (by rw [sortParticipants, List.mergeSort_singleton]; rfl)
    rfl
    (by decide)

theorem applyOps_append (st : DbKey → Option (List Nat)) (a b : List DbOp) :
    applyOps st (a ++ b) = applyOps (applyOps st a) b := by
  rw [applyOps, applyOps, applyOps, List.foldl_append]

theorem applyOps_cons (st : DbKey → Option (List Nat)) (op : DbOp) (rest : List DbOp) :
    applyOps st (op :: rest) = applyOps (applyOp st op) rest := rfl

theorem applyOps_lookup_untouched : ∀ (ops : List DbOp) (st : DbKey → Option (List Nat))
    (q : DbKey), (∀ v, DbOp.set q v ∉ ops) → DbOp.del q ∉ ops →
    applyOps st ops q = st q
  | [], _, _, _, _ => rfl
  | op :: rest, st, q, hs, hd => by
    rw [applyOps_cons, applyOps_lookup_untouched rest _ q
      (fun v hv => hs v (List.mem_cons_of_mem _ hv))
      (fun hv => hd (List.mem_cons_of_mem _ hv))]
    cases op with
    | set k v =>
      rw [applyOp, if_neg (fun hqk => hs v (by rw [hqk]; exact List.mem_cons_self _ _))]
    | del k =>
      rw [applyOp, if_neg (fun hqk => hd (by rw [hqk]; exact List.mem_cons_self _ _))]

theorem applyOps_sets_lookup_mem : ∀ (is : List Nat) (st : DbKey → Option (List Nat))
    (f : Nat → List Nat) (j : Nat), j ∈ is →
    applyOps st (is.map fun i => DbOp.set (DbKey.leaf i) (f i)) (DbKey.leaf j)
      = some (f j)
  | [], _, _, j, hj => absurd hj (List.not_mem_nil j)
  | i :: rest, st, f, j, hj => by
    rw [List.map_cons, applyOps_cons]
    by_cases hjr : j ∈ rest
    · exact applyOps_sets_lookup_mem rest _ f j hjr
    · have hji : j = i := by
        rcases List.mem_cons.mp hj with h | h
        · exact h
        · exact absurd h hjr
      rw [applyOps_lookup_untouched _ _ _
        (fun v hv => by
          obtain ⟨i', hi', he⟩ := List.mem_map.mp hv
          injection he with hk _
          injection hk with hk
          exact hjr (hk ▸ hi'))
        (fun hv => by
          obtain ⟨i', _, he⟩ := List.mem_map.mp hv
          cases he)]
      rw [applyOp, if_pos (by rw [hji]), hji]

theorem applyOps_dels_lookup_mem : ∀ (is : List Nat) (st : DbKey → Option (List Nat))
    (j : Nat), j ∈ is →
    applyOps st (is.map fun i => DbOp.del (DbKey.leaf i)) (DbKey.leaf j) = none
  | [], _, j, hj => absurd hj (List.not_mem_nil j)
  | i :: rest, st, j, hj => by
    rw [List.map_cons, applyOps_cons]
    by_cases hjr : j ∈ rest
    · exact applyOps_dels_lookup_mem rest _ j hjr
    · have hji : j = i := by
        rcases List.mem_cons.mp hj with h | h
        · exact h
        · exact absurd h hjr
      rw [applyOps_lookup_untouched _ _ _
        (fun v hv => by
          obtain ⟨i', _, he⟩ := List.mem_map.mp hv
          cases he)
        (fun hv => by
          obtain ⟨i', hi', he⟩ := List.mem_map.mp hv
          injection he with hk
          injection hk with hk
          exact hjr (hk ▸ hi'))]
      rw [applyOp, if_pos (by rw [hji])]

theorem sets_lookup_leaf_untouched (st : DbKey → Option (List Nat)) (f : Nat → List Nat)
    (is : List Nat) (j : Nat) (hj : j ∉ is) :
    applyOps st (is.map fun i => DbOp.set (DbKey.leaf i) (f i)) (DbKey.leaf j)
      = st (DbKey.leaf j) := by
  apply applyOps_lookup_untouched
  · intro v hv
    obtain ⟨i', hi', he⟩ := List.mem_map.mp hv
    injection he with hk _
    injection hk with hk
    exact hj (hk ▸ hi')
  · intro hv
    obtain ⟨i', _, he⟩ := List.mem_map.mp hv
    cases he

theorem dels_lookup_leaf_untouched (st : DbKey → Option (List Nat))
    (is : List Nat) (j : Nat) (hj : j ∉ is) :
    applyOps st (is.map fun i => DbOp.del (DbKey.leaf i)) (DbKey.leaf j)
      = st (DbKey.leaf j) := by
  apply applyOps_lookup_untouched
  · intro v hv
    obtain ⟨i', _, he⟩ := List.mem_map.mp hv
    cases he
  · intro hv
    obtain ⟨i', hi', he⟩ := List.mem_map.mp hv
    injection he with hk
    injection hk with hk
    exact hj (hk ▸ hi')

theorem applyOps_meta_leaf (st : DbKey → Option (List Nat)) (a b : List Nat) (j : Nat) :
    applyOps st [DbOp.set DbKey.metaSize a, DbOp.set DbKey.metaVersion b] (DbKey.leaf j)
      = st (DbKey.leaf j) := rfl

theorem applyOps_meta_size (st : DbKey → Option (List Nat)) (a b : List Nat) :
    applyOps st [DbOp.set DbKey.metaSize a, DbOp.set DbKey.metaVersion b] DbKey.metaSize
      = some a := rfl

theorem applyOps_meta_version (st : DbKey → Option (List Nat)) (a b : List Nat) :
    applyOps st [DbOp.set DbKey.metaSize a, DbOp.set DbKey.metaVersion b] DbKey.metaVersion
      = some b := rfl

/-- The committed store of a dirty sync, looked up at a leaf key. -/
theorem sync_store_leaf (encode : N → List Nat) (st : DbKey → Option (List Nat))
    (leaves : List N) (prev : Nat) (j : Nat) :
    applyOps st (syncOps encode leaves prev) (DbKey.leaf j)
      = (if j < leaves.length then some (encode (nth leaves j))
         else if j < prev then none
         else st (DbKey.leaf j)) := by
  rw [syncOps, applyOps_append, applyOps_append, applyOps_meta_leaf]
  by_cases h1 : j < leaves.length
  · rw [if_pos h1, dels_lookup_leaf_untouched _ _ _
      (fun hm => by have := (List.mem_range'_1.mp hm).1; omega)]
    exact applyOps_sets_lookup_mem _ _ _ j (List.mem_range.mpr h1)
  · rw [if_neg h1]
    by_cases h2 : j < prev
    · rw [if_pos h2]
      exact applyOps_dels_lookup_mem _ _ j (List.mem_range'_1.mpr ⟨by omega, by omega⟩)
    · rw [if_neg h2, dels_lookup_leaf_untouched _ _ _
        (fun hm => by have := (List.mem_range'_1.mp hm).2; omega)]
      exact sets_lookup_leaf_untouched _ _ _ j (fun hm => by
        have := List.mem_range.mp hm
        omega)

/-- C6.  `Sync` is a no-op for in-memory or clean trees; on a dirty
persistent tree it commits, in one transaction, every current leaf encoded
under its `leaf:<i>` key, deletes the stale `leaf:<i>` keys between the new
and the previously stored size, writes `meta:size` and `meta:version`, clears
`dirty`, leaves the node matrix alone — and if the store held no leaf key at
or beyond the old size, none at or beyond the new size survives the commit. -/
theorem c6_sync_transaction {N : Type} [Inhabited N] (encode : N → List Nat) (t : PTree N) :
    (t.hasDb = false → sync encode t = t) ∧
    (t.dirty = false → sync encode t = t) ∧
    (t.hasDb = true → t.dirty = true →
      (sync encode t).nodes = t.nodes ∧
      (sync encode t).dirty = false ∧
      (sync encode t).hasDb = true ∧
      (∀ i, i < sizeOf t.nodes →
        (sync encode t).store (DbKey.leaf i) = some (encode (nth (t.nodes.headD []) i))) ∧
      (∀ i, sizeOf t.nodes ≤ i → i < prevSizeOf t.store →
        (sync encode t).store (DbKey.leaf i) = none) ∧
      (sync encode t).store DbKey.metaSize = some (encodeInt (sizeOf t.nodes)) ∧
      (sync encode t).store DbKey.metaVersion = some versionOne ∧
      ((∀ i, prevSizeOf t.store ≤ i → t.store (DbKey.leaf i) = none) →
        ∀ i, sizeOf t.nodes ≤ i → (sync encode t).store (DbKey.leaf i) = none)) := by
  refine ⟨?_, ?_, ?_⟩
  · intro h
    rw [sync, if_pos (by rw [h]; simp)]
  · intro h
    by_cases hdb : t.hasDb
    · rw [sync, if_neg (by rw [hdb]; simp), if_pos (by rw [h]; simp)]
    · rw [sync, if_pos hdb]
  · intro hdb hdirty
    have hsz : (t.nodes.headD []).length = sizeOf t.nodes := rfl
    have hs : sync encode t = { t with
        dirty := false
        store := applyOps t.store
          (syncOps encode (t.nodes.headD []) (prevSizeOf t.store)) } := by
      rw [sync, if_neg (by rw [hdb]; simp), if_neg (by rw [hdirty]; simp)]
    rw [hs]
    refine ⟨rfl, rfl, hdb, ?_, ?_, ?_, ?_, ?_⟩
    · intro i hi
      show applyOps t.store (syncOps encode (t.nodes.headD []) (prevSizeOf t.store))
        (DbKey.leaf i) = _
      rw [sync_store_leaf, if_pos (by omega)]
    · intro i hi1 hi2
      show applyOps t.store (syncOps encode (t.nodes.headD []) (prevSizeOf t.store))
        (DbKey.leaf i) = _
      rw [sync_store_leaf, if_neg (by omega), if_pos hi2]
    · show applyOps t.store (syncOps encode (t.nodes.headD []) (prevSizeOf t.store))
        DbKey.metaSize = _
      rw [syncOps, applyOps_append, applyOps_append, applyOps_meta_size]
      rfl
    · show applyOps t.store (syncOps encode (t.nodes.headD []) (prevSizeOf t.store))
        DbKey.metaVersion = _
      rw [syncOps, applyOps_append, applyOps_append, applyOps_meta_version]
    · intro hclean i hi
      show applyOps t.store (syncOps encode (t.nodes.headD []) (prevSizeOf t.store))
        (DbKey.leaf i) = _
      by_cases h2 : i < prevSizeOf t.store
      · rw [sync_store_leaf, if_neg (by omega), if_pos h2]
      · rw [sync_store_leaf, if_neg (by omega), if_neg h2]
        exact hclean i (by omega)

theorem sync_store_meta_size (encode : N → List Nat) (st : DbKey → Option (List Nat))
    (leaves : List N) (prev : Nat) :
    applyOps st (syncOps encode leaves prev) DbKey.metaSize
      = some (encodeInt leaves.length) := by
  rw [syncOps, applyOps_append, applyOps_append, applyOps_meta_size]

theorem decode_digits_foldl : ∀ (ds : List Nat) (acc : Nat), (∀ d ∈ ds, d < 10) →
    ((ds.map (· + 48)).reverse).foldl
        (fun result digit => if 48 ≤ digit ∧ digit ≤ 57 then result * 10 + (digit - 48)
          else result) acc
      = acc * 10 ^ ds.length + Nat.ofDigits 10 ds
  | [], acc, _ => by simp
  | d :: ds, acc, hd => by
    rw [List.map_cons, List.reverse_cons, List.foldl_append,
      decode_digits_foldl ds acc (fun x hx => hd x (List.mem_cons_of_mem _ hx)),
      List.foldl_cons, List.foldl_nil]
    have hdlt : d < 10 := hd d (List.mem_cons_self _ _)
    rw [if_pos ⟨by omega, by omega⟩, Nat.ofDigits_cons, List.length_cons, pow_succ,
      show d + 48 - 48 = d by omega]
    ring

theorem decodeInt_encodeInt (n : Nat) : decodeInt (encodeInt n) = n := by
  by_cases hn : n = 0
  · subst hn
    rfl
  · rw [encodeInt, intToString, if_neg hn, decodeInt,
      decode_digits_foldl (Nat.digits 10 n) 0
        (fun d hd => Nat.digits_lt_base (by norm_num) hd),
      Nat.zero_mul, Nat.zero_add, Nat.ofDigits_digits]

theorem take_succ_nth : ∀ (l : List N) (m : Nat), m < l.length →
    l.take (m + 1) = l.take m ++ [nth l m]
  | [], m, h => by simp at h
  | a :: as, 0, _ => by simp [nth_cons_zero]
  | a :: as, m + 1, h => by
    rw [List.take_succ_cons, List.take_succ_cons, nth_cons_succ,
      take_succ_nth as m (by simpa using h)]
    rfl

/-- The leaf loop of `Load` over a store whose leaf keys hold the encoded
current leaves recovers exactly those leaves (prefix by prefix). -/
theorem loadLeaves_all {encode : N → List Nat} {decode : List Nat → Option N}
    {st : DbKey → Option (List Nat)} {lv : List N}
    (hcodec : ∀ x, decode (encode x) = some x)
    (hst : ∀ i, i < lv.length → st (DbKey.leaf i) = some (encode (nth lv i))) :
    ∀ m, m ≤ lv.length → loadLeaves decode st m = some (lv.take m)
  | 0, _ => by rw [loadLeaves, List.take_zero]
  | m + 1, h => by
    rw [loadLeaves, loadLeaves_all hcodec hst m (by omega), hst m (by omega)]
    simp only [Option.some_bind]
    rw [hcodec]
    simp only [Option.map_some']
    rw [take_succ_nth lv m (by omega)]

theorem nth_map_range (f : Nat → N) (k j : Nat) (h : j < k) :
    nth ((List.range k).map f) j = f j := by
  simp [nth, List.getD, List.getElem?_map, List.getElem?_range h]

/-- `rebuildTree`'s explicit parent level agrees with the canonical parent
level. -/
theorem parentOfLevel_eq (lvl : List N) :
    parentOfLevel hash lvl = parentLevel hash lvl := by
  apply ext_nth
  · rw [parentOfLevel, List.length_map, List.length_range, parentLevel_length]
  · intro j hj
    rw [parentOfLevel, List.length_map, List.length_range] at hj
    rw [parentOfLevel, nth_map_range _ _ _ hj,
      leanParent_eq_nth_parentLevel hash (by rw [parentLevel_length]; omega)]

theorem rebuildLevels_eq_buildLevels : ∀ (d : Nat) (lvl : List N),
    rebuildLevels hash d lvl = buildLevels hash d lvl
  | 0, _ => rfl
  | d + 1, lvl => by
    rw [rebuildLevels, buildLevels_succ, parentOfLevel_eq,
      rebuildLevels_eq_buildLevels d (parentLevel hash lvl)]

/-- C7.  After a dirty `Sync`, loading a fresh tree from the same store (with
a codec that round-trips every leaf) reconstructs exactly the synced node
matrix — so size, depth, root and the leaf sequence all coincide. -/
theorem c7_persistence_roundtrip {hash : N → N → N} {encode : N → List Nat}
    {decode : List Nat → Option N} {t : PTree N}
    (hcodec : ∀ x, decode (encode x) = some x)
    (hr : Reachable hash t.nodes) (hdb : t.hasDb = true) (hdirty : t.dirty = true) :
    load hash decode (sync encode t).store = some t.nodes := by
  obtain ⟨lv, hnodes⟩ := reachable_build hash hr
  have hleaves : t.nodes.headD [] = lv := by
    rw [hnodes, build]
    exact buildLevels_head hash _ _
  have hstore : (sync encode t).store
      = applyOps t.store (syncOps encode lv (prevSizeOf t.store)) := by
    rw [sync, if_neg (by rw [hdb]; simp), if_neg (by rw [hdirty]; simp)]
    show applyOps t.store (syncOps encode (t.nodes.headD []) (prevSizeOf t.store)) = _
    rw [hleaves]
  have hmeta : (sync encode t).store DbKey.metaSize = some (encodeInt lv.length) := by
    rw [hstore, sync_store_meta_size]
  have hst : ∀ i, i < lv.length →
      (sync encode t).store (DbKey.leaf i) = some (encode (nth lv i)) := by
    intro i hi
    rw [hstore, sync_store_leaf, if_pos hi]
  simp only [load, hmeta]
  rw [decodeInt_encodeInt]
  by_cases hn : lv.length = 0
  · rw [if_pos hn, hnodes, List.length_eq_zero.mp hn]
    rfl
  · rw [if_neg hn, loadLeaves_all hcodec hst lv.length le_rfl, List.take_length]
    show some (rebuildNodes hash lv) = some t.nodes
    rw [rebuildNodes, if_neg hn, rebuildLevels_eq_buildLevels, hnodes, build]

/-- Witness for C1: the round trip on the concrete two-leaf tree `[5, 7]`
with the two-prime hash, at index 1. -/
theorem c1_proof_roundtrip_witness :
    (∀ a : Nat, ((fun a b : Nat => a == b) a a) = true) ∧
    1 < sizeOf (insert bigIntHasher (insert bigIntHasher [[]] 5) 7) ∧
    ∃ p, generateProof (insert bigIntHasher (insert bigIntHasher [[]] 5) 7) 1 = some p ∧
      VerifyProofWith bigIntHasher (fun a b : Nat => a == b) p = true :=
  ⟨fun a => by simp, by decide,
    c1_proof_roundtrip (Reachable.ins 7 (Reachable.ins 5 Reachable.empty))
      (fun a => by simp) (by decide)⟩

/-- Witness for C2: the matrix invariant on the concrete one-leaf tree. -/
theorem c2_node_matrix_invariant_witness :
    (insert bigIntHasher [[]] 5).length - 1
        = ceilLog2 (max (sizeOf (insert bigIntHasher [[]] 5)) 1) ∧
    (levelAt (insert bigIntHasher [[]] 5)
        ((insert bigIntHasher [[]] 5).length - 1)).length
      = (if 0 < sizeOf (insert bigIntHasher [[]] 5) then 1 else 0) ∧
    (∀ l i, l + 1 < (insert bigIntHasher [[]] 5).length →
      2 * i + 1 < (levelAt (insert bigIntHasher [[]] 5) l).length →
      nth (levelAt (insert bigIntHasher [[]] 5) (l + 1)) i
        = bigIntHasher (nth (levelAt (insert bigIntHasher [[]] 5) l) (2 * i))
            (nth (levelAt (insert bigIntHasher [[]] 5) l) (2 * i + 1))) ∧
    (∀ l i, l + 1 < (insert bigIntHasher [[]] 5).length →
      i < (levelAt (insert bigIntHasher [[]] 5) (l + 1)).length →
      (levelAt (insert bigIntHasher [[]] 5) l).length ≤ 2 * i + 1 →
      nth (levelAt (insert bigIntHasher [[]] 5) (l + 1)) i
        = nth (levelAt (insert bigIntHasher [[]] 5) l) (2 * i)) :=
  c2_node_matrix_invariant (Reachable.ins 5 Reachable.empty)

/-- Witness for C4: batch insert versus folded single inserts of `[3, 4, 5]`
into the empty tree. -/
theorem c4_insertMany_eq_folded_inserts_witness :
    rootOf (insertMany bigIntHasher [[]] [3, 4, 5])
      = rootOf ([3, 4, 5].foldl (insert bigIntHasher) [[]]) :=
  c4_insertMany_eq_folded_inserts Reachable.empty [3, 4, 5]

/-- Witness for C5: the recorded-sibling description of the proof at index 0
of the concrete one-leaf tree. -/
theorem c5_generate_proof_records_witness :
    0 < sizeOf (insert bigIntHasher [[]] 5) ∧
    ∃ p, generateProof (insert bigIntHasher [[]] 5) 0 = some p ∧
      p.siblings = (recordedPairs (insert bigIntHasher [[]] 5) 0).map Prod.fst ∧
      p.index = packBits ((recordedPairs (insert bigIntHasher [[]] 5) 0).map Prod.snd) ∧
      p.siblings.length ≤ (insert bigIntHasher [[]] 5).length - 1 ∧
      (p.siblings.length = 0 ↔ sizeOf (insert bigIntHasher [[]] 5) = 1) ∧
      p.index < 2 ^ p.siblings.length ∧
      ∀ k, p.index / 2 ^ k % 2
          = cond (((recordedPairs (insert bigIntHasher [[]] 5) 0).map Prod.snd).getD k false)
              1 0 :=
  ⟨by decide, c5_generate_proof_records (Reachable.ins 5 Reachable.empty) (by decide)⟩

/-- Witness for C7: sync the concrete one-leaf persistent tree with the
singleton codec and load it back from the committed store. -/
theorem c7_persistence_roundtrip_witness :
    load bigIntHasher (fun b => some (b.headD 0))
        (sync (fun n => [n])
          ({ nodes := insert bigIntHasher [[]] 5, dirty := true,
             hasDb := true, store := fun _ => none } : PTree Nat)).store
      = some (insert bigIntHasher [[]] 5) :=
  c7_persistence_roundtrip (fun _ => rfl) (Reachable.ins 5 Reachable.empty) rfl rfl

/-- Witness for C8: pack and unpack address 3 with weight 5. -/
theorem c8_pack_unpack_roundtrip_witness :
    3 < 2 ^ 160 ∧ 5 < 2 ^ 88 ∧
    (PackAddressWeight 3 5 = some (3 * 2 ^ 88 + 5) ∧
      UnpackAddressWeight (3 * 2 ^ 88 + 5) = (3, 5)) :=
  ⟨by decide, by decide, c8_pack_unpack_roundtrip (by decide) (by decide)⟩

/-- Witness for C9: updating an absent address of a concrete one-entry
census reports `ErrAddressNotFound` and returns the census unchanged. -/
theorem c9_census_update_witness :
    censusUpdate bigIntHasher
        { tree := [[2 ^ 88 + 10]], addressIndex := [(1, 0)],
          indexToAddress := [(0, 1)], weights := [(1, 10)] } 2 7
      = some ({ tree := [[2 ^ 88 + 10]], addressIndex := [(1, 0)],
                indexToAddress := [(0, 1)], weights := [(1, 10)] },
          some CensusErr.addressNotFound) :=
  (c9_census_update
    (by
      refine ⟨by decide, ?_, ?_, ?_⟩
      · intro p hp
        rw [List.mem_singleton] at hp
        subst hp
        exact ⟨by decide, by decide, 10, by decide, by decide, by decide⟩
      · intro p hp q hq _
        rw [List.mem_singleton] at hp hq
        rw [hp, hq]
      · intro p hp q hq _
        rw [List.mem_singleton] at hp hq
        rw [hp, hq])
    (by decide)).1 (by decide)

/-- Witness for C10: one insert into the nonempty empty-leaf-level tree grows
the size by one. -/
theorem c10_insert_total_size_succ_witness :
    ([[]] : List (List Nat)) ≠ [] ∧
    sizeOf (insert bigIntHasher [[]] 9) = sizeOf ([[]] : List (List Nat)) + 1 :=
  ⟨by decide, c10_insert_total_size_succ [[]] 9 (by decide)⟩

end Thms

end LeanIMT
